import Mathlib

/-! Verification of the orchestration-and-storage core of ProperImage:
the ensemble combination engine (`image_ensemble.py`) and the flat-file
array store (`numpydb.py`).  Numeric arrays are modelled exactly, with
masked (invalid) cells embedded as `Option` and real/rational arithmetic
standing for the exact content of the float computations. -/

namespace ProperImage

/-- Modelled from the spec: `chunk_it` from the file `utils.py` of the repository,
whose source file is not part of this tree (only its caller
`image_ensemble.py` is).  Per the spec it partitions an ordered list into
at most `num` contiguous near-equal chunks whose concatenation in launch
order reproduces the original order; when the list has fewer elements than
`num` it degenerates to one element per chunk (fewer chunks than
requested). -/
def chunk_it {α : Type} : List α → ℕ → List (List α)
  | _, 0 => []
  | seq, num + 1 =>
    if seq.length ≤ num + 1 then seq.map (fun x => [x])
    else
      seq.take ((seq.length + num) / (num + 1)) ::
        chunk_it (seq.drop ((seq.length + num) / (num + 1))) num

lemma flatten_map_singleton {α : Type} (l : List α) :
    (l.map (fun x => [x])).flatten = l := by
  induction l with
  | nil => rfl
  | cons a l ih => simp [ih]

lemma chunk_it_flatten {α : Type} (num : ℕ) :
    ∀ seq : List α, 1 ≤ num ∨ seq = [] → (chunk_it seq num).flatten = seq := by
  induction num with
  | zero =>
    intro seq h
    rcases h with h | h
    · omega
    · subst h; rfl
  | succ n ih =>
    intro seq _
    by_cases hc : seq.length ≤ n + 1
    · simp only [chunk_it, if_pos hc]
      exact flatten_map_singleton seq
    · simp only [chunk_it, if_neg hc, List.flatten_cons]
      rcases Nat.eq_zero_or_pos n with hn | hn
      · subst hn
        have hk : (seq.length + 0) / (0 + 1) = seq.length := by omega
        rw [hk, List.drop_length]
        simp [chunk_it, List.take_length]
      · rw [ih _ (Or.inl hn), List.take_append_drop]

lemma chunk_it_arith {N n : ℕ} (h : n + 2 ≤ N) :
    (N + n) / (n + 1) ≤ N - n := by
  have hpos : 0 < n + 1 := Nat.succ_pos n
  rw [Nat.div_le_iff_le_mul_add_pred hpos]
  have h1 : 1 ≤ N - n := by omega
  have h2 : n * 1 ≤ n * (N - n) := Nat.mul_le_mul_left n h1
  rw [Nat.succ_mul]
  generalize n * (N - n) = t at h2 ⊢
  omega

lemma chunk_it_length_of_le {α : Type} (num : ℕ) :
    ∀ seq : List α, 1 ≤ num → num ≤ seq.length →
      (chunk_it seq num).length = num := by
  induction num with
  | zero => intro seq h; omega
  | succ n ih =>
    intro seq _ hlen
    by_cases hc : seq.length ≤ n + 1
    · have hEq : seq.length = n + 1 := le_antisymm hc hlen
      simp [chunk_it, if_pos hc, hEq]
    · simp only [chunk_it, if_neg hc, List.length_cons]
      rcases Nat.eq_zero_or_pos n with hn | hn
      · subst hn; rfl
      · have hN : n + 2 ≤ seq.length := by omega
        have hdrop : n ≤ (seq.drop ((seq.length + n) / (n + 1))).length := by
          rw [List.length_drop]
          have := chunk_it_arith hN
          omega
        rw [ih _ hn hdrop]

lemma chunk_it_of_small {α : Type} (seq : List α) (num : ℕ)
    (h : seq.length ≤ num + 1) :
    chunk_it seq (num + 1) = seq.map (fun x => [x]) := by
  simp [chunk_it, if_pos h]

lemma sum_map_count_flatten {α : Type} [DecidableEq α] (L : List (List α)) (x : α) :
    (L.map (List.count x)).sum = L.flatten.count x := by
  induction L with
  | nil => rfl
  | cons l L ih => simp [List.count_append, ih]

/-- Claim C2: for a list of `N` atoms and worker count `W ≥ 1`, chunking
produces chunks whose concatenation in launch order reproduces the
original atom order, every atom appears in exactly one chunk (counted with
multiplicity), when `N ≥ W` exactly `W` chunks are produced, and when
`N < W` exactly `N` singleton chunks (one atom per worker) are produced. -/
theorem claim_C2 {α : Type} [DecidableEq α] (seq : List α) (w : ℕ) (hw : 1 ≤ w) :
    (chunk_it seq w).flatten = seq
    ∧ (∀ x : α, ((chunk_it seq w).map (List.count x)).sum = seq.count x)
    ∧ (w ≤ seq.length → (chunk_it seq w).length = w)
    ∧ (seq.length < w →
        (chunk_it seq w).length = seq.length
        ∧ ∀ c ∈ chunk_it seq w, c.length = 1) := by
  refine ⟨chunk_it_flatten w seq (Or.inl hw), ?_, ?_, ?_⟩
  · intro x
    rw [sum_map_count_flatten, chunk_it_flatten w seq (Or.inl hw)]
  · intro hle
    exact chunk_it_length_of_le w seq hw hle
  · intro hlt
    obtain ⟨n, rfl⟩ : ∃ n, w = n + 1 := ⟨w - 1, by omega⟩
    rw [chunk_it_of_small seq n (by omega)]
    constructor
    · simp
    · intro c hc
      simp only [List.mem_map] at hc
      obtain ⟨a, _, rfl⟩ := hc
      rfl

/-- Witness for claim C2 at a concrete input: three atoms split over two
workers. -/
theorem claim_C2_witness :
    (1 ≤ 2)
    ∧ ((chunk_it [0, 1, 2] 2).flatten = [0, 1, 2]
      ∧ (∀ x : ℕ, ((chunk_it [0, 1, 2] 2).map (List.count x)).sum
            = List.count x [0, 1, 2])
      ∧ (2 ≤ ([0, 1, 2] : List ℕ).length → (chunk_it [0, 1, 2] 2).length = 2)
      ∧ (([0, 1, 2] : List ℕ).length < 2 →
          (chunk_it [0, 1, 2] 2).length = ([0, 1, 2] : List ℕ).length
          ∧ ∀ c ∈ chunk_it [0, 1, 2] 2, c.length = 1)) :=
  ⟨by decide, claim_C2 [0, 1, 2] 2 (by decide)⟩

/-! Masked arrays for the stacked-image computation.  A 2D float array
with validity mask is modelled as a flattened list of cells; a masked
(invalid) cell is `none`.  Exact rational arithmetic stands for the float
content. -/

/-- One cell of a masked array: `none` is a masked (invalid) cell. -/
abbrev MVal := Option ℚ

/-- A masked array, flattened to a list of cells. -/
abbrev MArr := List MVal

/-- Binary masked addition on cells, per `np.ma.add`: the result is masked
wherever either operand is masked. -/
def maAdd2 : MVal → MVal → MVal
  | some a, some b => some (a + b)
  | _, _ => none

/-- Element-wise masked addition of arrays (`np.ma.add`). -/
def ma_add (A B : MArr) : MArr := List.zipWith maAdd2 A B

/-- The zero-initialized output array of the global shape
(`np.zeros(self.global_shape)`), with `n` cells. -/
def zerosArr (n : ℕ) : MArr := List.replicate n (some 0)

/-- Modelled from the spec: the stack-mode Worker Reduction Unit
(`Combinator` with `stack=True`, from the file `combinator.py` of the repository,
whose source file is not part of this tree).  Per the spec each unit
internally sums/stacks the per-atom contributions of its chunk into a single
combined array of the global shape. -/
def combinatorStack (n : ℕ) (chunk : List MArr) : MArr :=
  chunk.foldl (fun acc c => ma_add c acc) (zerosArr n)

/-- `ImageEnsemble.calculate_S` (image_ensemble.py, lines 142-188): the
atoms are partitioned by `chunk_it` into `n_procs` chunks, one stack-mode
worker runs per chunk, and each partial stacked array is accumulated with
`S = np.ma.add(s_comp, S)` into a zero-initialized array of the global
shape (`n` cells). -/
def calculate_S (atoms : List MArr) (n_procs : ℕ) (n : ℕ) : MArr :=
  ((chunk_it atoms n_procs).map (combinatorStack n)).foldl
    (fun S s_comp => ma_add s_comp S) (zerosArr n)

lemma maAdd2_comm (x y : MVal) : maAdd2 x y = maAdd2 y x := by
  cases x <;> cases y <;> simp [maAdd2, add_comm]

lemma maAdd2_assoc (x y z : MVal) :
    maAdd2 (maAdd2 x y) z = maAdd2 x (maAdd2 y z) := by
  cases x <;> cases y <;> cases z <;> simp [maAdd2, add_assoc]

lemma ma_add_comm (A B : MArr) : ma_add A B = ma_add B A :=
  List.zipWith_comm_of_comm maAdd2 maAdd2_comm A B

lemma ma_add_assoc (A B C : MArr) :
    ma_add (ma_add A B) C = ma_add A (ma_add B C) := by
  induction A generalizing B C with
  | nil => simp [ma_add]
  | cons a A ih =>
    cases B with
    | nil => simp [ma_add]
    | cons b B =>
      cases C with
      | nil => simp [ma_add]
      | cons c C =>
        simp only [ma_add, List.zipWith_cons_cons, maAdd2_assoc]
        exact congrArg _ (ih B C)

lemma ma_add_left_comm (a x z : MArr) :
    ma_add a (ma_add x z) = ma_add x (ma_add a z) := by
  rw [← ma_add_assoc, ma_add_comm a x, ma_add_assoc]

lemma ma_add_length (A B : MArr) :
    (ma_add A B).length = min A.length B.length :=
  List.length_zipWith ..

lemma ma_add_zeros (A : MArr) (n : ℕ) (h : A.length = n) :
    ma_add A (zerosArr n) = A := by
  induction A generalizing n with
  | nil => subst h; rfl
  | cons a A ih =>
    subst h
    simp only [List.length_cons, zerosArr, List.replicate_succ] at *
    simp only [ma_add, List.zipWith_cons_cons]
    refine congrArg₂ _ ?_ (ih A.length rfl)
    cases a <;> simp [maAdd2]

lemma foldl_ma_add_pull (l : List MArr) (x : MArr) :
    ∀ z : MArr, l.foldl (fun S p => ma_add p S) (ma_add x z)
      = ma_add x (l.foldl (fun S p => ma_add p S) z) := by
  induction l with
  | nil => intro z; rfl
  | cons a l ih =>
    intro z
    simp only [List.foldl_cons]
    rw [ma_add_left_comm a x z, ih (ma_add a z)]

lemma foldl_ma_add_length (l : List MArr) (n : ℕ) :
    ∀ z : MArr, z.length = n → (∀ a ∈ l, a.length = n) →
      (l.foldl (fun S p => ma_add p S) z).length = n := by
  induction l with
  | nil => intro z hz _; exact hz
  | cons a l ih =>
    intro z hz hl
    simp only [List.foldl_cons]
    refine ih (ma_add a z) ?_ (fun b hb => hl b (List.mem_cons_of_mem a hb))
    rw [ma_add_length, hz, hl a (List.mem_cons_self a l), min_self]

lemma combinatorStack_length (n : ℕ) (c : List MArr)
    (h : ∀ a ∈ c, a.length = n) : (combinatorStack n c).length = n := by
  unfold combinatorStack
  have : (fun (acc : MArr) c => ma_add c acc)
      = (fun (S : MArr) p => ma_add p S) := rfl
  rw [this]
  exact foldl_ma_add_length c n (zerosArr n) (List.length_replicate ..) h

lemma foldl_from_zeros (X : MArr) (n : ℕ) (hX : X.length = n) (l : List MArr) :
    l.foldl (fun S p => ma_add p S) X
      = ma_add X (l.foldl (fun S p => ma_add p S) (zerosArr n)) := by
  conv_lhs => rw [← ma_add_zeros X n hX]
  exact foldl_ma_add_pull l X (zerosArr n)

lemma foldl_chunks (chunks : List (List MArr)) (n : ℕ)
    (h : ∀ a ∈ chunks.flatten, a.length = n) :
    (chunks.map (combinatorStack n)).foldl (fun S p => ma_add p S) (zerosArr n)
      = chunks.flatten.foldl (fun S p => ma_add p S) (zerosArr n) := by
  induction chunks with
  | nil => rfl
  | cons c cs ih =>
    have hc : ∀ a ∈ c, a.length = n := fun a ha =>
      h a (by simp [List.mem_flatten]; exact Or.inl ha)
    have hcs : ∀ a ∈ cs.flatten, a.length = n := fun a ha =>
      h a (by simp [List.flatten_cons, ha])
    have hcomb : (combinatorStack n c).length = n := combinatorStack_length n c hc
    calc ((c :: cs).map (combinatorStack n)).foldl
          (fun S p => ma_add p S) (zerosArr n)
        = (cs.map (combinatorStack n)).foldl (fun S p => ma_add p S)
            (ma_add (combinatorStack n c) (zerosArr n)) := by
          simp only [List.map_cons, List.foldl_cons]
      _ = ma_add (combinatorStack n c)
            ((cs.map (combinatorStack n)).foldl
              (fun S p => ma_add p S) (zerosArr n)) :=
          foldl_ma_add_pull _ _ _
      _ = ma_add (combinatorStack n c)
            (cs.flatten.foldl (fun S p => ma_add p S) (zerosArr n)) := by
          rw [ih hcs]
      _ = cs.flatten.foldl (fun S p => ma_add p S) (combinatorStack n c) :=
          (foldl_from_zeros _ n hcomb _).symm
      _ = (c :: cs).flatten.foldl (fun S p => ma_add p S) (zerosArr n) := by
          rw [List.flatten_cons, List.foldl_append]
          rfl

/-- With at least one worker, `calculate_S` equals the flat masked-addition
fold of all atom contributions: the chunked, per-worker accumulation
collapses to the un-chunked one. -/
lemma calculate_S_flat (atoms : List MArr) (w n : ℕ) (hw : 1 ≤ w)
    (h : ∀ a ∈ atoms, a.length = n) :
    calculate_S atoms w n
      = atoms.foldl (fun S p => ma_add p S) (zerosArr n) := by
  unfold calculate_S
  rw [foldl_chunks (chunk_it atoms w) n
    (by rw [chunk_it_flatten w atoms (Or.inl hw)]; exact h)]
  rw [chunk_it_flatten w atoms (Or.inl hw)]

lemma ma_add_lift (A : List ℚ) :
    ∀ B : List ℚ, ma_add (A.map some) (B.map some)
      = (List.zipWith (· + ·) A B).map some := by
  induction A with
  | nil => intro B; rfl
  | cons a A ih =>
    intro B
    cases B with
    | nil => rfl
    | cons b B =>
      simp only [List.map_cons, ma_add, List.zipWith_cons_cons, maAdd2]
      exact congrArg _ (ih B)

lemma foldl_ma_add_lift (l : List (List ℚ)) :
    ∀ z : List ℚ, (l.map (fun a => a.map some)).foldl
        (fun S p => ma_add p S) (z.map some)
      = (l.foldl (fun S a => List.zipWith (· + ·) a S) z).map some := by
  induction l with
  | nil => intro z; rfl
  | cons a l ih =>
    intro z
    simp only [List.map_cons, List.foldl_cons]
    rw [ma_add_lift a z, ih (List.zipWith (· + ·) a z)]

lemma zerosArr_lift (n : ℕ) :
    zerosArr n = (List.replicate n (0 : ℚ)).map some := by
  simp [zerosArr, List.map_replicate]

/-- Claim C1: for atoms whose per-atom stacked contributions are known
deterministic (unmasked) constants, `calculate_S` returns the element-wise
sum of those constants accumulated into a zero-initialized array of the
global shape, and the result is identical for every worker count (in
particular `w` workers and 1 worker agree). -/
theorem claim_C1 (atoms : List (List ℚ)) (w n : ℕ) (hw : 1 ≤ w)
    (hlen : ∀ a ∈ atoms, a.length = n) :
    calculate_S (atoms.map (fun a => a.map some)) w n
      = (atoms.foldl (fun S a => List.zipWith (· + ·) a S)
          (List.replicate n (0 : ℚ))).map some
    ∧ calculate_S (atoms.map (fun a => a.map some)) w n
      = calculate_S (atoms.map (fun a => a.map some)) 1 n := by
  have hlen' : ∀ a ∈ atoms.map (fun a => a.map some), a.length = n := by
    intro a ha
    simp only [List.mem_map] at ha
    obtain ⟨b, hb, rfl⟩ := ha
    simpa using hlen b hb
  have key : ∀ w' : ℕ, 1 ≤ w' →
      calculate_S (atoms.map (fun a => a.map some)) w' n
        = (atoms.foldl (fun S a => List.zipWith (· + ·) a S)
            (List.replicate n (0 : ℚ))).map some := by
    intro w' hw'
    rw [calculate_S_flat _ w' n hw' hlen', zerosArr_lift n,
      foldl_ma_add_lift atoms (List.replicate n (0 : ℚ))]
  exact ⟨key w hw, by rw [key w hw, key 1 le_rfl]⟩

/-- Witness for claim C1: the end-to-end scenario of the spec in miniature, two
atoms of all-ones contributions over two workers. -/
theorem claim_C1_witness :
    (1 ≤ 2) ∧ (∀ a ∈ [[(1 : ℚ), 1], [1, 1]], a.length = 2)
    ∧ (calculate_S ([[(1 : ℚ), 1], [1, 1]].map (fun a => a.map some)) 2 2
        = ([[(1 : ℚ), 1], [1, 1]].foldl (fun S a => List.zipWith (· + ·) a S)
            (List.replicate 2 (0 : ℚ))).map some
      ∧ calculate_S ([[(1 : ℚ), 1], [1, 1]].map (fun a => a.map some)) 2 2
        = calculate_S ([[(1 : ℚ), 1], [1, 1]].map (fun a => a.map some)) 1 2) :=
  ⟨by decide, by decide,
    claim_C1 [[(1 : ℚ), 1], [1, 1]] 2 2 (by decide) (by decide)⟩

/-! The flat-file array store (`numpydb.py`).  Python strings are
modelled as `List Char`; the pickle serialization of an array is modelled
as a self-delimiting length-prefixed blob (pickle streams are
self-delimiting, which is all `load` relies on); arrays themselves are
integer lists.  The `.map` file is modelled one line per record as the
pair (leading integer, remainder of the line after the `"\t\t "`
separator); this is exact for identifiers containing no newline
character, since the `%d` offset printed by `dump` is always the first
whitespace-delimited token of its line and always parses back by
`int`. -/

/-- A Python string, as its character list. -/
abbrev PyStr := List Char

/-- An array value stored in the database. -/
abbrev Arr := List Int

/-- The serialized byte blob of an array (`pickle.dump`), modelled as a
length-prefixed self-delimiting encoding. -/
def encode (a : Arr) : List Int := (a.length : Int) :: a

/-- Deserializing exactly one value starting at byte offset `pos` of the
data file (`fd.seek(pos); pickle.load(fd)`); `none` models an unpickling
error at a position that is not the start of a well-formed blob. -/
def decodeAt (file : List Int) (pos : ℕ) : Option Arr :=
  match file.drop pos with
  | [] => none
  | n :: rest =>
    if 0 ≤ n ∧ n.toNat ≤ rest.length then some (rest.take n.toNat) else none

/-- The whitespace set of the no-argument `split()` on the byte strings
of the Python 2 source (`string.whitespace`): space, tab, newline,
carriage return, vertical tab and form feed. -/
def isSpace (c : Char) : Bool :=
  c = ' ' || c = '\t' || c = '\n' || c = '\r' || c = '\x0b' || c = '\x0c'

/-- Helper for `splitWs`: `acc` holds the pending token, reversed. -/
def splitWsAux : PyStr → PyStr → List PyStr
  | [], acc => if acc = [] then [] else [acc.reverse]
  | c :: cs, acc =>
    if isSpace c then
      if acc = [] then splitWsAux cs []
      else acc.reverse :: splitWsAux cs []
    else splitWsAux cs (c :: acc)

/-- The no-argument `str.split()` of Python: the maximal runs of
non-whitespace characters, in order. -/
def splitWs (s : PyStr) : List PyStr := splitWsAux s []

lemma splitWsAux_cons_space (c : Char) (cs acc : PyStr)
    (hsp : isSpace c = true) (hacc : acc ≠ []) :
    splitWsAux (c :: cs) acc = acc.reverse :: splitWsAux cs [] := by
  rw [splitWsAux, if_pos hsp, if_neg hacc]

lemma splitWsAux_cons_space_nil (c : Char) (cs : PyStr)
    (hsp : isSpace c = true) :
    splitWsAux (c :: cs) [] = splitWsAux cs [] := by
  rw [splitWsAux, if_pos hsp, if_pos rfl]

lemma splitWsAux_cons_nonspace (c : Char) (cs acc : PyStr)
    (hsp : isSpace c = false) :
    splitWsAux (c :: cs) acc = splitWsAux cs (c :: acc) := by
  rw [splitWsAux, if_neg (by simp [hsp])]

lemma splitWsAux_nonspace_run (t : PyStr) :
    ∀ (x acc : PyStr), (∀ c ∈ t, isSpace c = false) →
      splitWsAux (t ++ x) acc = splitWsAux x (t.reverse ++ acc) := by
  induction t with
  | nil => intro x acc _; simp
  | cons c t ih =>
    intro x acc ht
    rw [List.cons_append,
      splitWsAux_cons_nonspace c _ _ (ht c (List.mem_cons_self c t)),
      ih x (c :: acc) (fun u hu => ht u (List.mem_cons_of_mem c hu))]
    simp

/-- The transformation applied to an identifier by the load-mode parse of
a map-file line (numpydb.py line 63): the single-space join of the list
`c[1:]` followed by a strip, where `c = line.split()`, i.e. the
whitespace-separated tokens of the identifier rejoined by single
spaces. -/
def normalizeId (s : PyStr) : PyStr := List.intercalate [' '] (splitWs s)

/-- The decimal digit character of `d`. -/
def digitChar (d : ℕ) : Char := Char.ofNat (48 + d)

/-- Structural helper for `natToChars`; the fuel strictly bounds the
argument, so the base case is never reached. -/
def natToCharsAux : ℕ → ℕ → List Char
  | 0, _ => []
  | fuel + 1, n =>
    if n < 10 then [digitChar n]
    else natToCharsAux fuel (n / 10) ++ [digitChar (n % 10)]

/-- The decimal digits written by the `%d` format. -/
def natToChars (n : ℕ) : List Char := natToCharsAux (n + 1) n

lemma natToCharsAux_irrel (n : ℕ) :
    ∀ fuel₁ fuel₂ : ℕ, n < fuel₁ → n < fuel₂ →
      natToCharsAux fuel₁ n = natToCharsAux fuel₂ n := by
  induction n using Nat.strong_induction_on with
  | _ n ih =>
    intro fuel₁ fuel₂ h1 h2
    obtain ⟨f1, rfl⟩ : ∃ f, fuel₁ = f + 1 := ⟨fuel₁ - 1, by omega⟩
    obtain ⟨f2, rfl⟩ : ∃ f, fuel₂ = f + 1 := ⟨fuel₂ - 1, by omega⟩
    by_cases h : n < 10
    · simp [natToCharsAux, h]
    · simp only [natToCharsAux, if_neg h]
      rw [ih (n / 10) (by omega) f1 f2 (by omega) (by omega)]

lemma natToChars_eq (n : ℕ) :
    natToChars n
      = if n < 10 then [digitChar n]
        else natToChars (n / 10) ++ [digitChar (n % 10)] := by
  show natToCharsAux (n + 1) n = _
  by_cases h : n < 10
  · simp [natToCharsAux, h]
  · simp only [natToCharsAux, if_neg h]
    unfold natToChars
    rw [natToCharsAux_irrel (n / 10) n (n / 10 + 1) (by omega) (by omega)]

/-- The numeric value of a decimal digit character, if it is one. -/
def digitVal? (c : Char) : Option ℕ :=
  if 48 ≤ c.toNat ∧ c.toNat ≤ 57 then some (c.toNat - 48) else none

/-- Fold of `int()` over a digit string. -/
def charsToNatAux : ℕ → List Char → Option ℕ
  | acc, [] => some acc
  | acc, c :: cs =>
    match digitVal? c with
    | some d => charsToNatAux (acc * 10 + d) cs
    | none => none

/-- The `int(...)` parse of a split token (numpydb.py line 63): `none`
models the `ValueError` raised on a token that is not a decimal numeral.
(The tokens this development evaluates it on are either pure digit
strings, on which it agrees with `int`, or digit-free fragments of
identifiers, on which both fail.) -/
def charsToNat? (s : List Char) : Option ℕ :=
  if s = [] then none else charsToNatAux 0 s

lemma digitVal?_digitChar (d : ℕ) (h : d < 10) :
    digitVal? (digitChar d) = some d := by
  interval_cases d <;> decide

lemma isSpace_digitChar (d : ℕ) (h : d < 10) :
    isSpace (digitChar d) = false := by
  interval_cases d <;> decide

lemma digitChar_ne_newline (d : ℕ) (h : d < 10) : digitChar d ≠ '\n' := by
  interval_cases d <;> decide

lemma natToChars_ne_nil (n : ℕ) : natToChars n ≠ [] := by
  rw [natToChars_eq]
  split
  · simp
  · simp

lemma natToChars_digits (n : ℕ) :
    ∀ c ∈ natToChars n, ∃ d, d < 10 ∧ c = digitChar d := by
  induction n using Nat.strong_induction_on with
  | _ n ih =>
    rw [natToChars_eq]
    split
    · next h =>
      intro c hc
      simp only [List.mem_singleton] at hc
      exact ⟨n, h, hc⟩
    · next h =>
      intro c hc
      rcases List.mem_append.mp hc with hc' | hc'
      · exact ih (n / 10) (Nat.div_lt_self (by omega) (by omega)) c hc'
      · simp only [List.mem_singleton] at hc'
        exact ⟨n % 10, Nat.mod_lt n (by omega), hc'⟩

lemma natToChars_nonspace (n : ℕ) :
    ∀ c ∈ natToChars n, isSpace c = false := by
  intro c hc
  obtain ⟨d, hd, rfl⟩ := natToChars_digits n c hc
  exact isSpace_digitChar d hd

lemma natToChars_no_newline (n : ℕ) : '\n' ∉ natToChars n := by
  intro hmem
  obtain ⟨d, hd, hEq⟩ := natToChars_digits n '\n' hmem
  exact digitChar_ne_newline d hd hEq.symm

lemma charsToNatAux_append (xs ys : List Char) :
    ∀ acc, charsToNatAux acc (xs ++ ys)
      = match charsToNatAux acc xs with
        | some m => charsToNatAux m ys
        | none => none := by
  induction xs with
  | nil => intro acc; rfl
  | cons c xs ih =>
    intro acc
    cases hd : digitVal? c with
    | none => simp [charsToNatAux, hd]
    | some d => simp [charsToNatAux, hd, ih]

lemma charsToNatAux_natToChars (n : ℕ) :
    ∀ acc, charsToNatAux acc (natToChars n)
      = some (acc * 10 ^ (natToChars n).length + n) := by
  induction n using Nat.strong_induction_on with
  | _ n ih =>
    intro acc
    rw [natToChars_eq]
    split
    · next h =>
      simp [charsToNatAux, digitVal?_digitChar n h]
    · next h =>
      rw [charsToNatAux_append,
        ih (n / 10) (Nat.div_lt_self (by omega) (by omega)) acc]
      simp only [charsToNatAux, digitVal?_digitChar (n % 10)
        (Nat.mod_lt n (by omega)), List.length_append,
        List.length_singleton]
      have hdm : 10 * (n / 10) + n % 10 = n := Nat.div_add_mod n 10
      rw [pow_succ]
      congr 1
      calc (acc * 10 ^ (natToChars (n / 10)).length + n / 10) * 10 + n % 10
          = acc * (10 ^ (natToChars (n / 10)).length * 10)
            + (10 * (n / 10) + n % 10) := by ring
        _ = acc * (10 ^ (natToChars (n / 10)).length * 10) + n := by
            rw [hdm]

lemma charsToNat?_natToChars (n : ℕ) :
    charsToNat? (natToChars n) = some n := by
  unfold charsToNat?
  rw [if_neg (natToChars_ne_nil n), charsToNatAux_natToChars n 0]
  simp

/-- One map-file line as written by `dump`, without its terminating
newline: `"%d\t\t %s" % (start, ident)`. -/
def lineBody (start : ℕ) (ident : PyStr) : PyStr :=
  natToChars start ++ ('\t' :: '\t' :: ' ' :: ident)

/-- One full map-file line as written by `dump`:
`"%d\t\t %s\n" % (start, ident)`. -/
def lineOf (start : ℕ) (ident : PyStr) : PyStr :=
  lineBody start ident ++ ['\n']

lemma splitWs_lineBody (k : ℕ) (ident : PyStr) :
    splitWs (lineBody k ident) = natToChars k :: splitWs ident := by
  unfold lineBody splitWs
  rw [splitWsAux_nonspace_run (natToChars k) _ [] (natToChars_nonspace k),
    List.append_nil,
    splitWsAux_cons_space '\t' _ _ (by decide)
      (by simp [natToChars_ne_nil k]),
    List.reverse_reverse,
    splitWsAux_cons_space_nil '\t' _ (by decide),
    splitWsAux_cons_space_nil ' ' _ (by decide)]

lemma lineBody_no_newline (k : ℕ) (ident : PyStr) (h : '\n' ∉ ident) :
    '\n' ∉ lineBody k ident := by
  intro hmem
  rcases List.mem_append.mp hmem with hm | hm
  · exact natToChars_no_newline k hm
  · rcases List.mem_cons.mp hm with hEq | hm
    · exact absurd hEq (by decide)
    · rcases List.mem_cons.mp hm with hEq | hm
      · exact absurd hEq (by decide)
      · rcases List.mem_cons.mp hm with hEq | hm
        · exact absurd hEq (by decide)
        · exact h hm

/-- The state of a `NumPyDB_cPickle` instance: the contents of the
`.dat` file, the text of the `.map` file, and the in-memory
`self.positions` list.  An offset is kept as `Int` because `locate`
compares it against the sentinel `-1`. -/
structure NumPyDB where
  dat : List Int
  mapfile : PyStr
  positions : List (Int × PyStr)
deriving DecidableEq

/-- Construction in store mode (numpydb.py lines 38-46): both files
are created/truncated and the in-memory index starts empty. -/
def NumPyDB.initStore : NumPyDB := ⟨[], [], []⟩

/-- `NumPyDB_cPickle.dump` (numpydb.py lines 91-99): the current
end-of-file offset `fd.tell()` is recorded, the line
`"%d\t\t %s\n" % (fd.tell(), identifier)` is appended to the map file,
`(fd.tell(), identifier)` is appended to `self.positions`, and the
pickled array is appended to the data file. -/
def NumPyDB.dump (db : NumPyDB) (a : Arr) (identifier : PyStr) : NumPyDB :=
  { dat := db.dat ++ encode a
  , mapfile := db.mapfile ++ lineOf db.dat.length identifier
  , positions := db.positions ++ [((db.dat.length : Int), identifier)] }

/-- The scanning loop of `NumPyDB.locate` (numpydb.py lines 73-79):
`selected_pos` starts at `-1`, `selected_id` at `None`, and the first
record whose identifier equals the query is selected, breaking the
loop. -/
def locateLoop (positions : List (Int × PyStr)) (identifier : PyStr) :
    Int × Option PyStr :=
  match positions with
  | [] => (-1, none)
  | (pos, ident) :: rest =>
    if ident = identifier then (pos, some ident)
    else locateLoop rest identifier

/-- `NumPyDB.locate` (numpydb.py lines 65-83): linear scan for the first
exact identifier match; raises `LookupError("Identifier not found")` when
the scan finishes with `selected_pos == -1`. -/
def NumPyDB.locate (db : NumPyDB) (identifier : PyStr) :
    Except String (Int × Option PyStr) :=
  let r := locateLoop db.positions identifier
  if r.1 = -1 then Except.error "Identifier not found" else Except.ok r

/-- `NumPyDB_cPickle.load` (numpydb.py lines 101-114): resolves via
`locate` (propagating its error), returns `[None, "not found"]` if the
located position is negative, otherwise seeks the data file to the
position and unpickles one array, returning `[a, id]`. -/
def NumPyDB.load (db : NumPyDB) (identifier : PyStr) :
    Except String (Option Arr × Option PyStr) :=
  match db.locate identifier with
  | Except.error e => Except.error e
  | Except.ok (pos, ident) =>
    if pos < 0 then Except.ok (none, some "not found".toList)
    else
      match decodeAt db.dat pos.toNat with
      | some a => Except.ok (some a, ident)
      | none => Except.error "UnpicklingError"

/-- A sequence of `dump` calls. -/
def dumpAll (db : NumPyDB) (ws : List (Arr × PyStr)) : NumPyDB :=
  ws.foldl (fun d w => d.dump w.1 w.2) db

/-- Placeholder record used with `List.getD`. -/
def dummyRec : Arr × PyStr := ([], [])

/-- The data file produced by a sequence of dumps from an empty store. -/
def datList (ws : List (Arr × PyStr)) : List Int :=
  (ws.map (fun w => encode w.1)).flatten

/-- The map-file lines produced by dumps starting at offset `start`. -/
def mapList (start : ℕ) : List (Arr × PyStr) → List (ℕ × PyStr)
  | [] => []
  | (a, ident) :: ws => (start, ident) :: mapList (start + (encode a).length) ws

/-- The in-memory index produced by dumps starting at offset `start`. -/
def posList (start : ℕ) : List (Arr × PyStr) → List (Int × PyStr)
  | [] => []
  | (a, ident) :: ws =>
    ((start : Int), ident) :: posList (start + (encode a).length) ws

/-- The map-file text produced by dumps starting at offset `start`. -/
def mapText (start : ℕ) : List (Arr × PyStr) → PyStr
  | [] => []
  | (a, ident) :: ws => lineOf start ident ++ mapText (start + (encode a).length) ws

/-- Byte offset at which the `i`-th dumped array starts. -/
def offsetOf (ws : List (Arr × PyStr)) (i : ℕ) : ℕ :=
  ((ws.take i).map (fun w => (encode w.1).length)).sum

lemma dumpAll_fields (ws : List (Arr × PyStr)) :
    ∀ db : NumPyDB,
      (dumpAll db ws).dat = db.dat ++ datList ws
      ∧ (dumpAll db ws).mapfile = db.mapfile ++ mapText db.dat.length ws
      ∧ (dumpAll db ws).positions = db.positions ++ posList db.dat.length ws := by
  induction ws with
  | nil => intro db; simp [dumpAll, datList, mapText, posList]
  | cons w ws ih =>
    intro db
    obtain ⟨a, ident⟩ := w
    have hstep : dumpAll db ((a, ident) :: ws)
        = dumpAll (db.dump a ident) ws := rfl
    obtain ⟨h1, h2, h3⟩ := ih (db.dump a ident)
    refine ⟨?_, ?_, ?_⟩
    · rw [hstep, h1]
      simp [NumPyDB.dump, datList, List.append_assoc]
    · rw [hstep, h2]
      simp [NumPyDB.dump, mapText, List.append_assoc, List.length_append,
        encode]
    · rw [hstep, h3]
      simp [NumPyDB.dump, posList, List.append_assoc, List.length_append,
        encode]

lemma dumpAll_initStore (ws : List (Arr × PyStr)) :
    dumpAll NumPyDB.initStore ws
      = ⟨datList ws, mapText 0 ws, posList 0 ws⟩ := by
  obtain ⟨h1, h2, h3⟩ := dumpAll_fields ws NumPyDB.initStore
  cases hdb : dumpAll NumPyDB.initStore ws
  simp only [hdb, NumPyDB.initStore] at h1 h2 h3
  simp_all [NumPyDB.initStore]

lemma decodeAt_append_encode (file : List Int) (a : Arr) (ext : List Int) :
    decodeAt (file ++ (encode a ++ ext)) file.length = some a := by
  have hd : (file ++ (encode a ++ ext)).drop file.length = encode a ++ ext := by
    simp
  unfold decodeAt
  rw [hd]
  simp [encode, List.take_left]

lemma locateLoop_append_of_not_mem (l₁ l₂ : List (Int × PyStr))
    (ident : PyStr) (h : ∀ p ∈ l₁, p.2 ≠ ident) :
    locateLoop (l₁ ++ l₂) ident = locateLoop l₂ ident := by
  induction l₁ with
  | nil => rfl
  | cons p l₁ ih =>
    obtain ⟨pos, pid⟩ := p
    have hne : pid ≠ ident := h (pos, pid) (List.mem_cons_self _ _)
    simp only [List.cons_append, locateLoop, if_neg hne]
    exact ih (fun q hq => h q (List.mem_cons_of_mem _ hq))

/-- Counterexample to claim C3 as stated: on a store opened in store mode,
dump an array under `"x"`, then a different array under the same
identifier; `load("x")` after the second dump returns the first array,
not the argument of the immediately preceding `dump`. -/
theorem claim_C3_counterexample :
    ¬(((NumPyDB.initStore.dump [2] ['x']).dump [3] ['x']).load ['x']
        = Except.ok (some [3], some ['x'])) := by
  intro h
  rw [show ((NumPyDB.initStore.dump [2] ['x']).dump [3] ['x']).load ['x']
      = Except.ok (some [2], some ['x']) from rfl] at h
  simp at h

/-- Claim C3 as amended: provided no record with identifier `id` is
already present in the in-memory index of the store (for instance on a freshly
constructed store), `dump(a, id)` followed by `load(id)` returns a value
equal to `a` together with the identifier `id`. -/
theorem claim_C3_amended (db : NumPyDB) (a : Arr) (ident : PyStr)
    (hfresh : ∀ p ∈ db.positions, p.2 ≠ ident) :
    (db.dump a ident).load ident = Except.ok (some a, some ident) := by
  have hloop : locateLoop (db.dump a ident).positions ident
      = ((db.dat.length : Int), some ident) := by
    show locateLoop (db.positions ++ [((db.dat.length : Int), ident)]) ident
      = ((db.dat.length : Int), some ident)
    rw [locateLoop_append_of_not_mem db.positions _ ident hfresh]
    simp [locateLoop]
  have hne : ((db.dat.length : Int)) ≠ -1 := by
    have := Int.natCast_nonneg db.dat.length
    omega
  unfold NumPyDB.load NumPyDB.locate
  rw [hloop]
  simp only [if_neg hne]
  have hlt : ¬((db.dat.length : Int) < 0) := by
    have := Int.natCast_nonneg db.dat.length
    omega
  rw [if_neg hlt]
  have hdec : decodeAt (db.dump a ident).dat (db.dat.length : Int).toNat
      = some a := by
    show decodeAt (db.dat ++ encode a) (db.dat.length : Int).toNat = some a
    rw [Int.toNat_natCast]
    have := decodeAt_append_encode db.dat a []
    simpa using this
  rw [hdec]

/-- Witness for the amended claim C3: a fresh store, one dump, one load. -/
theorem claim_C3_amended_witness :
    (∀ p ∈ NumPyDB.initStore.positions, p.2 ≠ ['a'])
    ∧ (NumPyDB.initStore.dump [5, 7] ['a']).load ['a']
        = Except.ok (some [5, 7], some ['a']) :=
  ⟨by decide, claim_C3_amended NumPyDB.initStore [5, 7] ['a'] (by decide)⟩

lemma locateLoop_posList_first (ws : List (Arr × PyStr)) (ident : PyStr) :
    ∀ (start i : ℕ), i < ws.length →
      (ws.getD i dummyRec).2 = ident →
      (∀ j, j < i → (ws.getD j dummyRec).2 ≠ ident) →
      locateLoop (posList start ws) ident
        = (((start + offsetOf ws i : ℕ) : Int), some ident) := by
  induction ws with
  | nil => intro start i hi; simp at hi
  | cons w ws ih =>
    intro start i hi hmatch hfirst
    obtain ⟨a, wid⟩ := w
    cases i with
    | zero =>
      simp only [List.getD, List.getElem?_cons_zero, Option.getD_some] at hmatch
      subst hmatch
      simp [posList, locateLoop, offsetOf]
    | succ i =>
      have hne : wid ≠ ident := by
        have := hfirst 0 (Nat.succ_pos i)
        simpa using this
      simp only [posList, locateLoop, if_neg hne]
      have hgetD : ∀ k : ℕ, (((a, wid) :: ws).getD (k + 1) dummyRec)
          = ws.getD k dummyRec := by
        intro k; rfl
      have := ih (start + (encode a).length) i (by simpa using hi)
        (by rw [← hgetD i]; exact hmatch)
        (fun j hj => by rw [← hgetD j]; exact hfirst (j + 1) (by omega))
      rw [this]
      have hoff : offsetOf ((a, wid) :: ws) (i + 1)
          = (encode a).length + offsetOf ws i := by
        simp [offsetOf, List.take_succ_cons]
      rw [hoff]
      norm_num
      ring_nf

lemma datList_cons (a : Arr) (ident : PyStr) (ws : List (Arr × PyStr)) :
    datList ((a, ident) :: ws) = encode a ++ datList ws := by
  simp [datList]

lemma decodeAt_datList (ws : List (Arr × PyStr)) :
    ∀ i : ℕ, i < ws.length →
      decodeAt (datList ws) (offsetOf ws i)
        = some (ws.getD i dummyRec).1 := by
  induction ws with
  | nil => intro i hi; simp at hi
  | cons w ws ih =>
    intro i hi
    obtain ⟨a, wid⟩ := w
    cases i with
    | zero =>
      rw [datList_cons]
      have h0 : offsetOf ((a, wid) :: ws) 0 = 0 := by simp [offsetOf]
      rw [h0]
      have := decodeAt_append_encode [] a (datList ws)
      simpa using this
    | succ i =>
      rw [datList_cons]
      have hoff : offsetOf ((a, wid) :: ws) (i + 1)
          = (encode a).length + offsetOf ws i := by
        simp [offsetOf, List.take_succ_cons]
      rw [hoff]
      have hshift : decodeAt (encode a ++ datList ws)
          ((encode a).length + offsetOf ws i)
          = decodeAt (datList ws) (offsetOf ws i) := by
        unfold decodeAt
        rw [List.drop_append]
      rw [hshift]
      exact ih i (by simpa using hi)

/-- Claim C4: for a store built by a sequence of dumps with possibly
repeated identifiers, `locate` returns the (offset, identifier) record of
the first write of the queried identifier, and `load` consequently
returns the content of the array first dumped under that identifier. -/
theorem claim_C4 (ws : List (Arr × PyStr)) (ident : PyStr) (i : ℕ)
    (hi : i < ws.length) (hmatch : (ws.getD i dummyRec).2 = ident)
    (hfirst : ∀ j, j < i → (ws.getD j dummyRec).2 ≠ ident) :
    (dumpAll NumPyDB.initStore ws).locate ident
      = Except.ok (((offsetOf ws i : ℕ) : Int), some ident)
    ∧ (dumpAll NumPyDB.initStore ws).load ident
      = Except.ok (some (ws.getD i dummyRec).1, some ident) := by
  rw [dumpAll_initStore ws]
  have hloop : locateLoop (posList 0 ws) ident
      = (((offsetOf ws i : ℕ) : Int), some ident) := by
    have := locateLoop_posList_first ws ident 0 i hi hmatch hfirst
    simpa using this
  have hne : (((offsetOf ws i : ℕ) : Int)) ≠ -1 := by
    have := Int.natCast_nonneg (offsetOf ws i)
    omega
  have hlocate : NumPyDB.locate ⟨datList ws, mapText 0 ws, posList 0 ws⟩ ident
      = Except.ok (((offsetOf ws i : ℕ) : Int), some ident) := by
    unfold NumPyDB.locate
    rw [hloop]
    simp [if_neg hne]
  refine ⟨hlocate, ?_⟩
  have hlt : ¬(((offsetOf ws i : ℕ) : Int) < 0) := by
    have := Int.natCast_nonneg (offsetOf ws i)
    omega
  have hdec : decodeAt (⟨datList ws, mapText 0 ws, posList 0 ws⟩ :
      NumPyDB).dat ((offsetOf ws i : ℕ) : Int).toNat
      = some (ws.getD i dummyRec).1 := by
    show decodeAt (datList ws) ((offsetOf ws i : ℕ) : Int).toNat
      = some (ws.getD i dummyRec).1
    rw [Int.toNat_natCast]
    exact decodeAt_datList ws i hi
  unfold NumPyDB.load
  rw [hlocate]
  simp only [if_neg hlt, hdec]

/-- Witness for claim C4: dumps under identifiers `a`, `b`, `a`; querying
`a` yields the first record (offset 0) and the first array `[5]`. -/
theorem claim_C4_witness :
    (0 < ([([5], ['a']), ([7], ['b']), ([9], ['a'])] :
        List (Arr × PyStr)).length)
    ∧ (([([5], ['a']), ([7], ['b']), ([9], ['a'])] :
        List (Arr × PyStr)).getD 0 dummyRec).2 = ['a']
    ∧ (∀ j, j < 0 → (([([5], ['a']), ([7], ['b']), ([9], ['a'])] :
        List (Arr × PyStr)).getD j dummyRec).2 ≠ ['a'])
    ∧ ((dumpAll NumPyDB.initStore
          [([5], ['a']), ([7], ['b']), ([9], ['a'])]).locate ['a']
        = Except.ok (((offsetOf [([5], ['a']), ([7], ['b']), ([9], ['a'])] 0 :
            ℕ) : Int), some ['a'])
      ∧ (dumpAll NumPyDB.initStore
          [([5], ['a']), ([7], ['b']), ([9], ['a'])]).load ['a']
        = Except.ok (some (([([5], ['a']), ([7], ['b']), ([9], ['a'])] :
            List (Arr × PyStr)).getD 0 dummyRec).1, some ['a'])) :=
  ⟨by decide, by decide, by omega,
    claim_C4 [([5], ['a']), ([7], ['b']), ([9], ['a'])] ['a'] 0
      (by decide) (by decide) (by omega)⟩

/-- Helper for `splitLines`: `acc` holds the pending line, reversed. -/
def splitLinesAux : PyStr → PyStr → List PyStr
  | [], acc => if acc = [] then [] else [acc.reverse]
  | c :: cs, acc =>
    if c = '\n' then acc.reverse :: splitLinesAux cs []
    else splitLinesAux cs (c :: acc)

/-- The physical lines of the map-file text, as the Python line
iteration of the load-mode constructor sees them (terminating newlines
dropped, which the subsequent whitespace split erases anyway). -/
def splitLines (text : PyStr) : List PyStr := splitLinesAux text []

/-- Parsing one physical map-file line in load mode (numpydb.py lines
57-63): `c = line.split()`, the offset `int(c[0])` and the identifier
as the stripped single-space join of `c[1:]`.  A blank line raises
`IndexError` at `c[0]`; a first token that is not a numeral raises
`ValueError` at `int`. -/
def parseTokens (line : PyStr) : Except String (Int × PyStr) :=
  match splitWs line with
  | [] => Except.error "IndexError"
  | c0 :: rest =>
    match charsToNat? c0 with
    | none => Except.error "ValueError"
    | some k => Except.ok ((k : Int), List.intercalate [' '] rest)

/-- The load-mode parse loop over the map-file lines, raising at the
first bad line. -/
def parseAll : List PyStr → Except String (List (Int × PyStr))
  | [] => Except.ok []
  | line :: rest =>
    match parseTokens line with
    | Except.error e => Except.error e
    | Except.ok r =>
      match parseAll rest with
      | Except.error e => Except.error e
      | Except.ok rs => Except.ok (r :: rs)

/-- Construction in load mode (numpydb.py lines 48-63): if either the
data file or the map file is absent (`none`), construction fails with the
missing-file `IOError`; otherwise the map-file text is split into lines
and parsed, a parse failure propagating as the corresponding Python
exception. -/
def initLoad (datFile : Option (List Int)) (mapFile : Option PyStr) :
    Except String NumPyDB :=
  match datFile, mapFile with
  | some dat, some text =>
    match parseAll (splitLines text) with
    | Except.ok recs =>
      Except.ok { dat := dat, mapfile := text, positions := recs }
    | Except.error e => Except.error e
  | _, _ => Except.error "Could not find the files"

lemma mapList_length (ws : List (Arr × PyStr)) :
    ∀ start : ℕ, (mapList start ws).length = ws.length := by
  induction ws with
  | nil => intro start; rfl
  | cons w ws ih =>
    intro start
    obtain ⟨a, ident⟩ := w
    simp [mapList, ih]

lemma splitLinesAux_cons_newline (cs acc : PyStr) :
    splitLinesAux ('\n' :: cs) acc = acc.reverse :: splitLinesAux cs [] := by
  rw [splitLinesAux, if_pos rfl]

lemma splitLinesAux_cons_other (c : Char) (cs acc : PyStr)
    (hc : ¬(c = '\n')) :
    splitLinesAux (c :: cs) acc = splitLinesAux cs (c :: acc) := by
  rw [splitLinesAux, if_neg hc]

lemma splitLinesAux_body (l : PyStr) :
    ∀ (rest acc : PyStr), '\n' ∉ l →
      splitLinesAux (l ++ ('\n' :: rest)) acc
        = (acc.reverse ++ l) :: splitLinesAux rest [] := by
  induction l with
  | nil =>
    intro rest acc _
    rw [List.nil_append, splitLinesAux_cons_newline]
    simp
  | cons c l ih =>
    intro rest acc hnl
    have hc : ¬(c = '\n') :=
      fun h => hnl (List.mem_cons.mpr (Or.inl h.symm))
    rw [List.cons_append, splitLinesAux_cons_other c _ _ hc,
      ih rest (c :: acc) (fun h => hnl (List.mem_cons_of_mem c h))]
    simp

lemma splitLines_mapText (ws : List (Arr × PyStr)) :
    ∀ start : ℕ, (∀ w ∈ ws, '\n' ∉ w.2) →
      splitLines (mapText start ws)
        = (mapList start ws).map (fun r => lineBody r.1 r.2) := by
  induction ws with
  | nil => intro start _; rfl
  | cons w ws ih =>
    intro start hnl
    obtain ⟨a, ident⟩ := w
    have hrw : mapText start ((a, ident) :: ws)
        = lineBody start ident
          ++ ('\n' :: mapText (start + (encode a).length) ws) := by
      simp [mapText, lineOf, List.append_assoc]
    show splitLinesAux (mapText start ((a, ident) :: ws)) [] = _
    rw [hrw, splitLinesAux_body _ _ []
      (lineBody_no_newline start ident
        (hnl (a, ident) (List.mem_cons_self _ _)))]
    simp only [List.reverse_nil, List.nil_append]
    rw [show splitLinesAux (mapText (start + (encode a).length) ws) []
        = splitLines (mapText (start + (encode a).length) ws) from rfl,
      ih (start + (encode a).length)
        (fun u hu => hnl u (List.mem_cons_of_mem _ hu))]
    simp [mapList]

lemma parseTokens_lineBody (k : ℕ) (ident : PyStr) :
    parseTokens (lineBody k ident)
      = Except.ok ((k : Int), normalizeId ident) := by
  unfold parseTokens
  rw [splitWs_lineBody]
  simp [charsToNat?_natToChars k, normalizeId]

lemma parseAll_bodies (rs : List (ℕ × PyStr)) :
    parseAll (rs.map (fun r => lineBody r.1 r.2))
      = Except.ok (rs.map (fun r => ((r.1 : Int), normalizeId r.2))) := by
  induction rs with
  | nil => rfl
  | cons r rs ih =>
    obtain ⟨k, ident⟩ := r
    simp only [List.map_cons, parseAll, parseTokens_lineBody k ident, ih]

lemma parseTokens_error_msg (line : PyStr) (e : String)
    (h : parseTokens line = Except.error e) :
    e = "IndexError" ∨ e = "ValueError" := by
  unfold parseTokens at h
  cases hs : splitWs line with
  | nil =>
    rw [hs] at h
    simp only [Except.error.injEq] at h
    exact Or.inl h.symm
  | cons c0 rest =>
    rw [hs] at h
    cases hn : charsToNat? c0 with
    | none =>
      simp only [hn, Except.error.injEq] at h
      exact Or.inr h.symm
    | some k =>
      simp [hn] at h

lemma parseAll_error_msg (ls : List PyStr) :
    ∀ e : String, parseAll ls = Except.error e →
      e = "IndexError" ∨ e = "ValueError" := by
  induction ls with
  | nil => intro e h; simp [parseAll] at h
  | cons line rest ih =>
    intro e h
    unfold parseAll at h
    cases ht : parseTokens line with
    | error e' =>
      rw [ht] at h
      simp only [Except.error.injEq] at h
      exact h ▸ parseTokens_error_msg line e' ht
    | ok r =>
      rw [ht] at h
      cases hr : parseAll rest with
      | error e' =>
        rw [hr] at h
        simp only [Except.error.injEq] at h
        exact h ▸ ih e' hr
      | ok rs =>
        rw [hr] at h
        simp at h

/-- The reload of a store whose dumped identifiers contain no newline
character: one parsed record per dump, with the identifier
whitespace-normalized. -/
lemma initLoad_dumped (ws : List (Arr × PyStr))
    (hnl : ∀ w ∈ ws, '\n' ∉ w.2) :
    initLoad (some (dumpAll NumPyDB.initStore ws).dat)
        (some (dumpAll NumPyDB.initStore ws).mapfile)
      = Except.ok ⟨datList ws, mapText 0 ws,
          (mapList 0 ws).map (fun r => ((r.1 : Int), normalizeId r.2))⟩ := by
  rw [dumpAll_initStore ws]
  show (match parseAll (splitLines (mapText 0 ws)) with
    | Except.ok recs =>
      Except.ok (⟨datList ws, mapText 0 ws, recs⟩ : NumPyDB)
    | Except.error e => Except.error e) = _
  rw [splitLines_mapText ws 0 hnl, parseAll_bodies]

/-- Counterexample to claim C7 as stated: dumping one array under the
identifier `a\n7 b` writes two physical map-file lines, and the reload
parses both, so the reloaded index has two records after a single
dump. -/
theorem claim_C7_counterexample :
    ∃ db' : NumPyDB,
      initLoad
          (some (dumpAll NumPyDB.initStore
            [([5], ['a', '\n', '7', ' ', 'b'])]).dat)
          (some (dumpAll NumPyDB.initStore
            [([5], ['a', '\n', '7', ' ', 'b'])]).mapfile)
        = Except.ok db'
      ∧ db'.positions.length
          ≠ ([([5], ['a', '\n', '7', ' ', 'b'])] : List (Arr × PyStr)).length := by
  refine ⟨⟨(dumpAll NumPyDB.initStore
      [([5], ['a', '\n', '7', ' ', 'b'])]).dat,
    (dumpAll NumPyDB.initStore
      [([5], ['a', '\n', '7', ' ', 'b'])]).mapfile,
    [((0 : Int), ['a']), ((7 : Int), ['b'])]⟩, ?_, by decide⟩
  rfl

/-- Claim C7 as amended: load-mode construction fails with the
missing-store error exactly when at least one backing file is absent;
when both files of a dump-built store are present and no dumped
identifier contains a newline character, the parsed in-memory index has
exactly one record per map-file line, so its length equals the number of
prior dump calls. -/
theorem claim_C7_amended (ws : List (Arr × PyStr))
    (hnl : ∀ w ∈ ws, '\n' ∉ w.2) :
    (∀ (datFile : Option (List Int)) (mapFile : Option PyStr),
      initLoad datFile mapFile = Except.error "Could not find the files"
        ↔ (datFile = none ∨ mapFile = none))
    ∧ (∃ db' : NumPyDB,
        initLoad (some (dumpAll NumPyDB.initStore ws).dat)
            (some (dumpAll NumPyDB.initStore ws).mapfile)
          = Except.ok db'
        ∧ db'.positions.length = ws.length) := by
  constructor
  · intro datFile mapFile
    cases datFile with
    | none => simp [initLoad]
    | some dat =>
      cases mapFile with
      | none => simp [initLoad]
      | some text =>
        constructor
        · intro h
          cases hp : parseAll (splitLines text) with
          | ok recs =>
            rw [show initLoad (some dat) (some text)
                = Except.ok ⟨dat, text, recs⟩ from by
              show (match parseAll (splitLines text) with
                | Except.ok recs =>
                  Except.ok (⟨dat, text, recs⟩ : NumPyDB)
                | Except.error e => Except.error e) = _
              rw [hp]] at h
            simp at h
          | error e =>
            rw [show initLoad (some dat) (some text)
                = Except.error e from by
              show (match parseAll (splitLines text) with
                | Except.ok recs =>
                  Except.ok (⟨dat, text, recs⟩ : NumPyDB)
                | Except.error e => Except.error e) = _
              rw [hp]] at h
            simp only [Except.error.injEq] at h
            rcases parseAll_error_msg (splitLines text) e hp with rfl | rfl
            · exact absurd h.symm (by decide)
            · exact absurd h.symm (by decide)
        · intro h
          rcases h with h | h <;> exact absurd h (by simp)
  · refine ⟨_, initLoad_dumped ws hnl, ?_⟩
    simp [mapList_length ws 0]

/-- Witness for the amended claim C7: one dump of a newline-free
identifier. -/
theorem claim_C7_amended_witness :
    (∀ w ∈ ([([2], ['a'])] : List (Arr × PyStr)), '\n' ∉ w.2)
    ∧ ((∀ (datFile : Option (List Int)) (mapFile : Option PyStr),
        initLoad datFile mapFile = Except.error "Could not find the files"
          ↔ (datFile = none ∨ mapFile = none))
      ∧ (∃ db' : NumPyDB,
          initLoad (some (dumpAll NumPyDB.initStore [([2], ['a'])]).dat)
              (some (dumpAll NumPyDB.initStore [([2], ['a'])]).mapfile)
            = Except.ok db'
          ∧ db'.positions.length
              = ([([2], ['a'])] : List (Arr × PyStr)).length)) :=
  ⟨by decide, claim_C7_amended [([2], ['a'])] (by decide)⟩

lemma locateLoop_spec (l : List (Int × PyStr)) (ident : PyStr) :
    (locateLoop l ident = (-1, none) ∧ ∀ p ∈ l, p.2 ≠ ident)
    ∨ (∃ pos : Int, (pos, ident) ∈ l
        ∧ locateLoop l ident = (pos, some ident)) := by
  induction l with
  | nil => exact Or.inl ⟨rfl, by simp⟩
  | cons p l ih =>
    obtain ⟨pos, pid⟩ := p
    by_cases h : pid = ident
    · subst h
      exact Or.inr ⟨pos, List.mem_cons_self _ _, by simp [locateLoop]⟩
    · rcases ih with ⟨hl, hall⟩ | ⟨pos', hmem, hl⟩
      · refine Or.inl ⟨?_, ?_⟩
        · simp [locateLoop, if_neg h, hl]
        · intro q hq
          rcases List.mem_cons.mp hq with rfl | hq'
          · exact h
          · exact hall q hq'
      · exact Or.inr ⟨pos', List.mem_cons_of_mem _ hmem,
          by simp [locateLoop, if_neg h, hl]⟩

/-- Claim C8: on any store whose recorded offsets are non-negative (true
of every reachable store), `locate` fails with the not-found error
exactly when no record's identifier equals the query, and any successful
result carries a record whose identifier is exactly the query: there is
no approximate matching. -/
theorem claim_C8 (db : NumPyDB) (ident : PyStr)
    (hpos : ∀ p ∈ db.positions, 0 ≤ p.1) :
    (db.locate ident = Except.error "Identifier not found"
      ↔ ∀ p ∈ db.positions, p.2 ≠ ident)
    ∧ (∀ (pos : Int) (oid : Option PyStr),
        db.locate ident = Except.ok (pos, oid)
          → oid = some ident ∧ (pos, ident) ∈ db.positions) := by
  rcases locateLoop_spec db.positions ident with ⟨hl, hall⟩ | ⟨pos, hmem, hl⟩
  · constructor
    · constructor
      · intro _; exact hall
      · intro _; unfold NumPyDB.locate; rw [hl]; rfl
    · intro pos oid hok
      unfold NumPyDB.locate at hok
      rw [hl] at hok
      simp at hok
  · have hge : 0 ≤ pos := hpos (pos, ident) hmem
    have hne : pos ≠ -1 := by omega
    have hok : db.locate ident = Except.ok (pos, some ident) := by
      unfold NumPyDB.locate
      rw [hl]
      simp [if_neg hne]
    constructor
    · constructor
      · intro herr
        rw [hok] at herr
        simp at herr
      · intro hall
        exact absurd rfl (hall (pos, ident) hmem)
    · intro pos' oid' hok'
      rw [hok] at hok'
      simp only [Except.ok.injEq, Prod.mk.injEq] at hok'
      obtain ⟨h1, h2⟩ := hok'
      subst h1; subst h2
      exact ⟨rfl, hmem⟩

/-- Witness for claim C8 at a concrete store with one record. -/
theorem claim_C8_witness :
    (∀ p ∈ (NumPyDB.initStore.dump [2] ['a']).positions, 0 ≤ p.1)
    ∧ (((NumPyDB.initStore.dump [2] ['a']).locate ['b']
          = Except.error "Identifier not found"
        ↔ ∀ p ∈ (NumPyDB.initStore.dump [2] ['a']).positions, p.2 ≠ ['b'])
      ∧ (∀ (pos : Int) (oid : Option PyStr),
          (NumPyDB.initStore.dump [2] ['a']).locate ['b']
              = Except.ok (pos, oid)
            → oid = some ['b']
              ∧ (pos, ['b']) ∈ (NumPyDB.initStore.dump [2] ['a']).positions)) :=
  ⟨by decide, claim_C8 (NumPyDB.initStore.dump [2] ['a']) ['b'] (by decide)⟩

lemma mem_posList (ws : List (Arr × PyStr)) :
    ∀ (start : ℕ) (p : Int × PyStr), p ∈ posList start ws →
      ∃ i : ℕ, i < ws.length
        ∧ p = (((start + offsetOf ws i : ℕ) : Int), (ws.getD i dummyRec).2) := by
  induction ws with
  | nil => intro start p hp; simp [posList] at hp
  | cons w ws ih =>
    intro start p hp
    obtain ⟨a, ident⟩ := w
    simp only [posList, List.mem_cons] at hp
    rcases hp with rfl | hp
    · exact ⟨0, by simp, by simp [offsetOf]⟩
    · obtain ⟨i, hi, hpi⟩ := ih (start + (encode a).length) p hp
      refine ⟨i + 1, by simpa using hi, ?_⟩
      rw [hpi]
      have hoff : offsetOf ((a, ident) :: ws) (i + 1)
          = (encode a).length + offsetOf ws i := by
        simp [offsetOf, List.take_succ_cons]
      have hget : (((a, ident) :: ws).getD (i + 1) dummyRec)
          = ws.getD i dummyRec := rfl
      rw [hget, hoff]
      congr 1
      omega

/-- Claim C9: on any store built by a sequence of dumps, every recorded
offset is non-negative, and `load` either fails with the same not-found
error as `locate` or returns a pair `[a, id]` with `id` the queried
identifier; in particular the `[None, "not found"]` return guarded by a
negative position inside `load` is never produced. -/
theorem claim_C9 (ws : List (Arr × PyStr)) (ident : PyStr) :
    (∀ p ∈ (dumpAll NumPyDB.initStore ws).positions, 0 ≤ p.1)
    ∧ ((dumpAll NumPyDB.initStore ws).load ident
          = Except.error "Identifier not found"
      ∨ ∃ a : Arr, (dumpAll NumPyDB.initStore ws).load ident
          = Except.ok (some a, some ident))
    ∧ (dumpAll NumPyDB.initStore ws).load ident
        ≠ Except.ok (none, some "not found".toList) := by
  rw [dumpAll_initStore ws]
  have hnonneg : ∀ p ∈ posList 0 ws, 0 ≤ p.1 := by
    intro p hp
    obtain ⟨i, _, rfl⟩ := mem_posList ws 0 p hp
    exact Int.natCast_nonneg _
  have hmain :
      (NumPyDB.load ⟨datList ws, mapText 0 ws, posList 0 ws⟩ ident
          = Except.error "Identifier not found"
        ∨ ∃ a : Arr, NumPyDB.load ⟨datList ws, mapText 0 ws, posList 0 ws⟩ ident
            = Except.ok (some a, some ident)) := by
    rcases locateLoop_spec (posList 0 ws) ident with ⟨hl, _⟩ | ⟨pos, hmem, hl⟩
    · left
      unfold NumPyDB.load NumPyDB.locate
      rw [hl]
      rfl
    · right
      obtain ⟨i, hi, heq⟩ := mem_posList ws 0 (pos, ident) hmem
      have hposEq : pos = ((offsetOf ws i : ℕ) : Int) := by
        have := congrArg Prod.fst heq
        simpa using this
      have hne : pos ≠ -1 := by
        rw [hposEq]
        have := Int.natCast_nonneg (offsetOf ws i)
        omega
      have hlt : ¬pos < 0 := by
        rw [hposEq]
        have := Int.natCast_nonneg (offsetOf ws i)
        omega
      have hdec : decodeAt (datList ws) pos.toNat
          = some (ws.getD i dummyRec).1 := by
        rw [hposEq, Int.toNat_natCast]
        exact decodeAt_datList ws i hi
      refine ⟨(ws.getD i dummyRec).1, ?_⟩
      unfold NumPyDB.load NumPyDB.locate
      rw [hl]
      simp only [if_neg hne, if_neg hlt]
      show (match decodeAt (datList ws) pos.toNat with
        | some a => Except.ok ((some a : Option Arr), some ident)
        | none => Except.error "UnpicklingError")
        = Except.ok (some (ws.getD i dummyRec).1, some ident)
      rw [hdec]
  refine ⟨hnonneg, hmain, ?_⟩
  rcases hmain with h | ⟨a, h⟩
  · rw [h]; simp
  · rw [h]; simp

/-! Whitespace normalization of identifiers across a store/reload cycle
(claim C10). -/

/-- No two adjacent whitespace characters. -/
def noTwoSpaces : PyStr → Bool
  | [] => true
  | [_] => true
  | a :: b :: rest => (!(isSpace a) || !(isSpace b)) && noTwoSpaces (b :: rest)

/-- The first character, if any, is not whitespace. -/
def headOk : PyStr → Bool
  | [] => true
  | c :: _ => !(isSpace c)

/-- An identifier with no leading or trailing whitespace whose internal
whitespace consists only of single plain spaces. -/
def cleanId (s : PyStr) : Bool :=
  s.all (fun c => !(isSpace c) || c = ' ')
    && headOk s && headOk s.reverse && noTwoSpaces s

lemma intercalate_single (sep x : PyStr) : List.intercalate sep [x] = x := by
  simp [List.intercalate]

lemma intercalate_cons_of_ne_nil (sep x : PyStr) (xs : List PyStr)
    (h : xs ≠ []) :
    List.intercalate sep (x :: xs) = x ++ sep ++ List.intercalate sep xs := by
  cases xs with
  | nil => exact absurd rfl h
  | cons y ys => simp [List.intercalate, List.intersperse]

lemma splitWsAux_ne_nil (s : PyStr) :
    ∀ acc : PyStr, acc ≠ [] → splitWsAux s acc ≠ [] := by
  induction s with
  | nil =>
    intro acc hacc
    simp [splitWsAux, hacc]
  | cons c cs ih =>
    intro acc hacc
    by_cases hsp : isSpace c
    · simp only [splitWsAux, hsp, if_true, if_neg hacc]
      exact List.cons_ne_nil _ _
    · simp only [splitWsAux, hsp, if_false]
      exact ih (c :: acc) (List.cons_ne_nil c acc)

lemma noTwoSpaces_tail (a : Char) (s : PyStr)
    (h : noTwoSpaces (a :: s) = true) : noTwoSpaces s = true := by
  cases s with
  | nil => rfl
  | cons b rest =>
    simp only [noTwoSpaces, Bool.and_eq_true] at h
    exact h.2

lemma getLast?_cons_of_ne_nil (a : Char) (s : PyStr) (h : s ≠ []) :
    (a :: s).getLast? = s.getLast? := by
  cases s with
  | nil => exact absurd rfl h
  | cons b rest => exact List.getLast?_cons_cons

lemma intercalate_splitWsAux (s : PyStr) :
    ∀ acc : PyStr,
      (∀ c ∈ s, isSpace c = true → c = ' ') →
      noTwoSpaces s = true →
      (∀ c, s.getLast? = some c → isSpace c = false) →
      (acc = [] → ∀ c, s.head? = some c → isSpace c = false) →
      List.intercalate [' '] (splitWsAux s acc) = acc.reverse ++ s := by
  induction s with
  | nil =>
    intro acc _ _ _ _
    by_cases hacc : acc = []
    · subst hacc; simp [splitWsAux, List.intercalate]
    · simp [splitWsAux, hacc, intercalate_single]
  | cons c cs ih =>
    intro acc h1 h2 h3 h4
    by_cases hsp : isSpace c = true
    · have hc : c = ' ' := h1 c (List.mem_cons_self c cs) hsp
      by_cases hacc : acc = []
      · exact absurd (h4 hacc c rfl) (by simp [hsp])
      · have hcs : cs ≠ [] := by
          intro hnil
          subst hnil
          have := h3 c (by simp)
          rw [this] at hsp
          exact Bool.false_ne_true hsp
        obtain ⟨d, cs', rfl⟩ : ∃ d cs', cs = d :: cs' := by
          cases cs with
          | nil => exact absurd rfl hcs
          | cons d cs' => exact ⟨d, cs', rfl⟩
        have hd : isSpace d = false := by
          simp only [noTwoSpaces, Bool.and_eq_true, Bool.or_eq_true,
            Bool.not_eq_true'] at h2
          rcases h2.1 with h | h
          · rw [h] at hsp; exact absurd hsp (by simp)
          · exact h
        rw [splitWsAux_cons_space c _ acc hsp hacc]
        have hne : splitWsAux (d :: cs') [] ≠ [] := by
          rw [splitWsAux_cons_nonspace d cs' [] hd]
          exact splitWsAux_ne_nil cs' [d] (List.cons_ne_nil d [])
        rw [intercalate_cons_of_ne_nil _ _ _ hne]
        have h3' : ∀ x, (d :: cs').getLast? = some x → isSpace x = false := by
          intro x hx
          apply h3 x
          rw [getLast?_cons_of_ne_nil c (d :: cs') (List.cons_ne_nil d cs')]
          exact hx
        have hrec := ih []
          (fun x hx hxs => h1 x (List.mem_cons_of_mem c hx) hxs)
          (noTwoSpaces_tail c _ h2)
          h3'
          (fun _ x hx => by
            simp only [List.head?_cons, Option.some.injEq] at hx
            rw [← hx]; exact hd)
        rw [hrec]
        simp [hc]
    · have hsp' : isSpace c = false := by
        cases hb : isSpace c
        · rfl
        · exact absurd hb hsp
      rw [splitWsAux_cons_nonspace c cs acc hsp']
      have h3' : ∀ x, cs.getLast? = some x → isSpace x = false := by
        intro x hx
        apply h3 x
        cases cs with
        | nil => simp at hx
        | cons e es =>
          rw [getLast?_cons_of_ne_nil c (e :: es) (List.cons_ne_nil e es)]
          exact hx
      have hrec := ih (c :: acc)
        (fun x hx hxs => h1 x (List.mem_cons_of_mem c hx) hxs)
        (noTwoSpaces_tail c _ h2)
        h3'
        (fun habs => absurd habs (List.cons_ne_nil c acc))
      rw [hrec]
      simp

/-- On a clean identifier the load-mode whitespace normalization is the
identity. -/
lemma normalizeId_of_clean (s : PyStr) (h : cleanId s = true) :
    normalizeId s = s := by
  simp only [cleanId, Bool.and_eq_true] at h
  obtain ⟨⟨⟨hall, hhead⟩, hlast⟩, htwo⟩ := h
  unfold normalizeId splitWs
  refine intercalate_splitWsAux s [] ?_ htwo ?_ ?_
  · intro c hc hcs
    have := List.all_eq_true.mp hall c hc
    simp only [Bool.or_eq_true, Bool.not_eq_true'] at this
    rcases this with h | h
    · rw [h] at hcs; exact absurd hcs (by simp)
    · exact of_decide_eq_true h
  · intro c hc
    rw [← List.head?_reverse] at hc
    cases hrev : s.reverse with
    | nil => rw [hrev] at hc; simp at hc
    | cons d rest =>
      rw [hrev] at hc
      simp only [List.head?_cons, Option.some.injEq] at hc
      have hok : headOk (d :: rest) = true := by rw [← hrev]; exact hlast
      rw [← hc]
      simpa [headOk] using hok
  · intro _ c hc
    cases s with
    | nil => simp at hc
    | cons d rest =>
      simp only [List.head?_cons, Option.some.injEq] at hc
      rw [← hc]
      simpa [headOk] using hhead
lemma splitWsAux_tokens (s : PyStr) :
    ∀ acc : PyStr, (∀ c ∈ acc, isSpace c = false) →
      ∀ t ∈ splitWsAux s acc, t ≠ [] ∧ ∀ c ∈ t, isSpace c = false := by
  induction s with
  | nil =>
    intro acc hacc t ht
    by_cases h : acc = []
    · subst h; simp [splitWsAux] at ht
    · simp only [splitWsAux, if_neg h, List.mem_singleton] at ht
      subst ht
      exact ⟨by simp [h], fun c hc => hacc c (List.mem_reverse.mp hc)⟩
  | cons c cs ih =>
    intro acc hacc t ht
    cases hb : isSpace c with
    | false =>
      rw [splitWsAux_cons_nonspace c cs acc hb] at ht
      refine ih (c :: acc) ?_ t ht
      intro x hx
      rcases List.mem_cons.mp hx with rfl | hx
      · exact hb
      · exact hacc x hx
    | true =>
      by_cases h : acc = []
      · subst h
        rw [splitWsAux_cons_space_nil c cs hb] at ht
        exact ih [] (by simp) t ht
      · rw [splitWsAux_cons_space c cs acc hb h] at ht
        rcases List.mem_cons.mp ht with rfl | ht'
        · exact ⟨by simp [h], fun x hx => hacc x (List.mem_reverse.mp hx)⟩
        · exact ih [] (by simp) t ht'

lemma intercalate_nil_sep (sep : PyStr) : List.intercalate sep [] = [] := by
  simp [List.intercalate]

lemma intercalate_ne_nil (t : PyStr) (ts : List PyStr) (ht : t ≠ []) :
    List.intercalate [' '] (t :: ts) ≠ [] := by
  cases ts with
  | nil => rw [intercalate_single]; exact ht
  | cons t' ts' =>
    rw [intercalate_cons_of_ne_nil _ _ _ (List.cons_ne_nil t' ts')]
    simp

lemma intercalate_head (d : Char) (t : PyStr) (ts : List PyStr) :
    ∃ r : PyStr, List.intercalate [' '] ((d :: t) :: ts) = d :: r := by
  cases ts with
  | nil => exact ⟨t, intercalate_single [' '] (d :: t)⟩
  | cons t' ts' =>
    refine ⟨t ++ [' '] ++ List.intercalate [' '] (t' :: ts'), ?_⟩
    rw [intercalate_cons_of_ne_nil _ _ _ (List.cons_ne_nil t' ts')]
    simp

lemma noTwoSpaces_append (t ys : PyStr)
    (ht : ∀ c ∈ t, isSpace c = false) (hys : noTwoSpaces ys = true) :
    noTwoSpaces (t ++ ys) = true := by
  induction t with
  | nil => simpa
  | cons a t ih =>
    have ha : isSpace a = false := ht a (List.mem_cons_self a t)
    have ih' := ih (fun c hc => ht c (List.mem_cons_of_mem a hc))
    show noTwoSpaces (a :: (t ++ ys)) = true
    cases htys : t ++ ys with
    | nil => rfl
    | cons b rest =>
      simp only [noTwoSpaces, Bool.and_eq_true, Bool.or_eq_true,
        Bool.not_eq_true']
      refine ⟨Or.inl ha, ?_⟩
      rw [← htys]
      exact ih'

lemma mem_of_getLast?_eq (l : PyStr) (c : Char) (h : l.getLast? = some c) :
    c ∈ l := by
  rw [← List.head?_reverse] at h
  cases hrev : l.reverse with
  | nil => rw [hrev] at h; simp at h
  | cons d rest =>
    rw [hrev] at h
    simp only [List.head?_cons, Option.some.injEq] at h
    rw [← List.mem_reverse, hrev, ← h]
    exact List.mem_cons_self d rest

lemma getLast?_append_right (l₁ l₂ : PyStr) (h : l₂ ≠ []) :
    (l₁ ++ l₂).getLast? = l₂.getLast? := by
  induction l₁ with
  | nil => rfl
  | cons a l₁ ih =>
    rw [List.cons_append, getLast?_cons_of_ne_nil a (l₁ ++ l₂)
      (by
        intro hh
        rcases List.append_eq_nil.mp hh with ⟨_, h2⟩
        exact h h2), ih]

lemma intercalate_all_clean (ts : List PyStr)
    (htok : ∀ t ∈ ts, t ≠ [] ∧ ∀ c ∈ t, isSpace c = false) :
    ∀ c ∈ List.intercalate [' '] ts, isSpace c = true → c = ' ' := by
  induction ts with
  | nil =>
    rw [intercalate_nil_sep]
    intro c hc
    simp at hc
  | cons t ts ih =>
    cases ts with
    | nil =>
      rw [intercalate_single]
      intro c hc hcs
      have := (htok t (List.mem_cons_self t [])).2 c hc
      rw [this] at hcs
      exact absurd hcs (by simp)
    | cons t' ts' =>
      rw [intercalate_cons_of_ne_nil _ _ _ (List.cons_ne_nil t' ts')]
      intro c hc hcs
      rcases List.mem_append.mp hc with hc' | hc'
      · rcases List.mem_append.mp hc' with hc'' | hc''
        · have := (htok t (List.mem_cons_self t _)).2 c hc''
          rw [this] at hcs
          exact absurd hcs (by simp)
        · simpa using hc''
      · exact ih (fun u hu => htok u (List.mem_cons_of_mem t hu)) c hc' hcs

lemma intercalate_headOk (ts : List PyStr)
    (htok : ∀ t ∈ ts, t ≠ [] ∧ ∀ c ∈ t, isSpace c = false) :
    headOk (List.intercalate [' '] ts) = true := by
  cases ts with
  | nil => rfl
  | cons t ts' =>
    obtain ⟨hne, hch⟩ := htok t (List.mem_cons_self t ts')
    obtain ⟨d, t'', rfl⟩ : ∃ d t'', t = d :: t'' := by
      cases t with
      | nil => exact absurd rfl hne
      | cons d t'' => exact ⟨d, t'', rfl⟩
    obtain ⟨r, hr⟩ := intercalate_head d t'' ts'
    rw [hr]
    have := hch d (List.mem_cons_self d t'')
    simp [headOk, this]

lemma intercalate_getLast (ts : List PyStr)
    (htok : ∀ t ∈ ts, t ≠ [] ∧ ∀ c ∈ t, isSpace c = false) :
    ∀ c, (List.intercalate [' '] ts).getLast? = some c → isSpace c = false := by
  induction ts with
  | nil =>
    rw [intercalate_nil_sep]
    intro c hc
    simp at hc
  | cons t ts ih =>
    cases ts with
    | nil =>
      rw [intercalate_single]
      intro c hc
      exact (htok t (List.mem_cons_self t [])).2 c (mem_of_getLast?_eq t c hc)
    | cons t' ts' =>
      rw [intercalate_cons_of_ne_nil _ _ _ (List.cons_ne_nil t' ts')]
      intro c hc
      have htok' : ∀ u ∈ t' :: ts', u ≠ [] ∧ ∀ x ∈ u, isSpace x = false :=
        fun u hu => htok u (List.mem_cons_of_mem t hu)
      have hne : List.intercalate [' '] (t' :: ts') ≠ [] :=
        intercalate_ne_nil t' ts' (htok' t' (List.mem_cons_self t' ts')).1
      rw [List.append_assoc, getLast?_append_right _ _ (by simp [hne]),
        getLast?_append_right _ _ hne] at hc
      exact ih htok' c hc

lemma intercalate_noTwo (ts : List PyStr)
    (htok : ∀ t ∈ ts, t ≠ [] ∧ ∀ c ∈ t, isSpace c = false) :
    noTwoSpaces (List.intercalate [' '] ts) = true := by
  induction ts with
  | nil => rfl
  | cons t ts ih =>
    cases ts with
    | nil =>
      rw [intercalate_single]
      have := noTwoSpaces_append t [] (htok t (List.mem_cons_self t [])).2 rfl
      simpa using this
    | cons t' ts' =>
      rw [intercalate_cons_of_ne_nil _ _ _ (List.cons_ne_nil t' ts'),
        List.append_assoc]
      apply noTwoSpaces_append t _ (htok t (List.mem_cons_self t _)).2
      have htok' : ∀ u ∈ t' :: ts', u ≠ [] ∧ ∀ x ∈ u, isSpace x = false :=
        fun u hu => htok u (List.mem_cons_of_mem t hu)
      obtain ⟨hne', hch'⟩ := htok' t' (List.mem_cons_self t' ts')
      obtain ⟨e, t'', rfl⟩ : ∃ e t'', t' = e :: t'' := by
        cases t' with
        | nil => exact absurd rfl hne'
        | cons e t'' => exact ⟨e, t'', rfl⟩
      obtain ⟨r, hr⟩ := intercalate_head e t'' ts'
      show noTwoSpaces ([' '] ++ List.intercalate [' '] ((e :: t'') :: ts'))
        = true
      rw [hr]
      show noTwoSpaces (' ' :: e :: r) = true
      simp only [noTwoSpaces, Bool.and_eq_true, Bool.or_eq_true,
        Bool.not_eq_true']
      refine ⟨Or.inr (hch' e (List.mem_cons_self e t'')), ?_⟩
      rw [← hr]
      exact ih htok'

/-- The whitespace-normalized form of any identifier is clean. -/
lemma cleanId_normalizeId (s : PyStr) : cleanId (normalizeId s) = true := by
  have htok := splitWsAux_tokens s [] (by simp)
  unfold normalizeId splitWs
  simp only [cleanId, Bool.and_eq_true]
  refine ⟨⟨⟨?_, intercalate_headOk _ htok⟩, ?_⟩, intercalate_noTwo _ htok⟩
  · rw [List.all_eq_true]
    intro c hc
    simp only [Bool.or_eq_true, Bool.not_eq_true']
    cases hb : isSpace c with
    | false => exact Or.inl rfl
    | true =>
      right
      simp [intercalate_all_clean _ htok c hc hb]
  · cases hrev : (List.intercalate [' '] (splitWsAux s [])).reverse with
    | nil => rfl
    | cons d rest =>
      have hd : (List.intercalate [' '] (splitWsAux s [])).getLast? = some d := by
        rw [← List.head?_reverse, hrev]; rfl
      have := intercalate_getLast _ htok d hd
      simp [headOk, this]

/-- An identifier that is not clean is changed by the load-mode
whitespace normalization. -/
lemma normalizeId_ne_of_not_clean (s : PyStr) (h : ¬cleanId s = true) :
    normalizeId s ≠ s := by
  intro heq
  apply h
  rw [← heq]
  exact cleanId_normalizeId s

lemma cleanId_no_newline (s : PyStr) (h : cleanId s = true) : '\n' ∉ s := by
  intro hmem
  simp only [cleanId, Bool.and_eq_true] at h
  have := List.all_eq_true.mp h.1.1.1 '\n' hmem
  simp only [Bool.or_eq_true, Bool.not_eq_true'] at this
  rcases this with hfalse | hEq
  · exact absurd hfalse (by decide)
  · exact absurd (of_decide_eq_true hEq) (by decide)

lemma mapList_map_normalize (ws : List (Arr × PyStr)) :
    ∀ start : ℕ, (∀ w ∈ ws, cleanId w.2 = true) →
      (mapList start ws).map (fun r => ((r.1 : Int), normalizeId r.2))
        = posList start ws := by
  induction ws with
  | nil => intro start _; rfl
  | cons w ws ih =>
    intro start hclean
    obtain ⟨a, ident⟩ := w
    simp only [mapList, posList, List.map_cons]
    have hid : normalizeId ident = ident :=
      normalizeId_of_clean ident (hclean (a, ident) (List.mem_cons_self _ _))
    rw [hid]
    rw [ih (start + (encode a).length)
      (fun u hu => hclean u (List.mem_cons_of_mem _ hu))]

lemma mapList_getElem? (ws : List (Arr × PyStr)) :
    ∀ (start i : ℕ), i < ws.length →
      (mapList start ws)[i]?
        = some (start + offsetOf ws i, (ws.getD i dummyRec).2) := by
  induction ws with
  | nil => intro start i hi; simp at hi
  | cons w ws ih =>
    intro start i hi
    obtain ⟨a, ident⟩ := w
    cases i with
    | zero => simp [mapList, offsetOf]
    | succ i =>
      simp only [mapList, List.getElem?_cons_succ]
      rw [ih (start + (encode a).length) i (by simpa using hi)]
      have hoff : offsetOf ((a, ident) :: ws) (i + 1)
          = (encode a).length + offsetOf ws i := by
        simp [offsetOf, List.take_succ_cons]
      have hget : (((a, ident) :: ws).getD (i + 1) dummyRec)
          = ws.getD i dummyRec := rfl
      rw [hget, hoff]
      congr 2
      omega

/-- Counterexample to claim C10 as stated: the identifier `a\nb`
violates the whitespace condition, but its reload is not the
whitespace-normalized identifier `a b` — the newline breaks the map-file
line structure and load-mode construction fails outright with the
`ValueError` of the stray-line `int` parse. -/
theorem claim_C10_counterexample :
    ¬cleanId ['a', '\n', 'b'] = true
    ∧ normalizeId ['a', '\n', 'b'] = ['a', ' ', 'b']
    ∧ (∀ db' : NumPyDB,
        initLoad (some (dumpAll NumPyDB.initStore
            [([1], ['a', '\n', 'b'])]).dat)
          (some (dumpAll NumPyDB.initStore
            [([1], ['a', '\n', 'b'])]).mapfile)
          ≠ Except.ok db') := by
  refine ⟨by decide, by decide, ?_⟩
  intro db' hc
  have h : initLoad (some (dumpAll NumPyDB.initStore
        [([1], ['a', '\n', 'b'])]).dat)
      (some (dumpAll NumPyDB.initStore
        [([1], ['a', '\n', 'b'])]).mapfile)
      = Except.error "ValueError" := rfl
  rw [h] at hc
  exact Except.noConfusion hc

/-- Claim C10 as amended: reloading a store whose identifiers are all
clean (no leading/trailing whitespace, internal whitespace only single
spaces) reproduces the in-memory index record for record; when no dumped
identifier contains a newline character, a record whose identifier
violates the whitespace condition (e.g. tabs or runs of spaces) reloads
as its whitespace-normalized form, which differs from the original.
(An identifier containing a newline breaks the line structure instead,
and reload fails or miscounts.) -/
theorem claim_C10_amended (ws : List (Arr × PyStr)) :
    ((∀ w ∈ ws, cleanId w.2 = true) →
      ∃ db' : NumPyDB,
        initLoad (some (dumpAll NumPyDB.initStore ws).dat)
            (some (dumpAll NumPyDB.initStore ws).mapfile)
          = Except.ok db'
        ∧ db'.positions = (dumpAll NumPyDB.initStore ws).positions)
    ∧ (∀ i : ℕ, i < ws.length →
        (∀ w ∈ ws, '\n' ∉ w.2) →
        ¬cleanId (ws.getD i dummyRec).2 = true →
        ∃ db' : NumPyDB,
          initLoad (some (dumpAll NumPyDB.initStore ws).dat)
              (some (dumpAll NumPyDB.initStore ws).mapfile)
            = Except.ok db'
          ∧ db'.positions[i]?
              = some (((offsetOf ws i : ℕ) : Int),
                  normalizeId (ws.getD i dummyRec).2)
          ∧ normalizeId (ws.getD i dummyRec).2 ≠ (ws.getD i dummyRec).2) := by
  constructor
  · intro hclean
    refine ⟨_, initLoad_dumped ws
      (fun w hw => cleanId_no_newline w.2 (hclean w hw)), ?_⟩
    show (mapList 0 ws).map (fun r => ((r.1 : Int), normalizeId r.2))
      = (dumpAll NumPyDB.initStore ws).positions
    rw [mapList_map_normalize ws 0 hclean, dumpAll_initStore ws]
  · intro i hi hnl hnotclean
    refine ⟨_, initLoad_dumped ws hnl, ?_,
      normalizeId_ne_of_not_clean _ hnotclean⟩
    show ((mapList 0 ws).map
      (fun r => ((r.1 : Int), normalizeId r.2)))[i]? = _
    rw [List.getElem?_map, mapList_getElem? ws 0 i hi]
    simp
/-! The ensemble's lazily cached atom list (image_ensemble.py,
lines 80-132).  `SingleImage` is an external collaborator; only the
constructor arguments the ensemble passes to it matter here. -/

/-- The atom built by `SingleImage(im, imagefile=True, pow_th=self.pow_th)`
for one image reference. -/
structure SingleImage where
  img : ℕ
  pow_th : ℚ
deriving DecidableEq

/-- The mutable state of an `ImageEnsemble`: the image-reference list
`self.imgl`, the power threshold, and the cached atom list `self._atoms`
(`none` when the attribute is not yet set). -/
structure ImageEnsemble where
  imgl : List ℕ
  pow_th : ℚ
  atomsCache : Option (List SingleImage)
deriving DecidableEq

/-- The atom list materialized from the current image list. -/
def mkAtoms (e : ImageEnsemble) : List SingleImage :=
  e.imgl.map (fun im => ⟨im, e.pow_th⟩)

/-- The comparison `len(self._atoms) is not len(self.imgl)` of
image_ensemble.py line 129, as CPython evaluates it on the two length
values: ints up to 256 are interned, so for them object identity agrees
with value equality, while two equal lengths above 256 are distinct
fresh int objects and the comparison is true even though the values are
equal. -/
def lenIsNot (m n : ℕ) : Bool := decide (m ≠ n) || decide (256 < m)

/-- The `atoms` property (image_ensemble.py lines 108-132): if `_atoms`
is absent it is materialized; else if `len(self._atoms) is not
len(self.imgl)` it is re-materialized; otherwise the cached list is
returned unchanged.  Returns the atom list together with the updated
ensemble state. -/
def ImageEnsemble.atoms (e : ImageEnsemble) :
    List SingleImage × ImageEnsemble :=
  match e.atomsCache with
  | none => (mkAtoms e, { e with atomsCache := some (mkAtoms e) })
  | some a =>
    if lenIsNot a.length e.imgl.length then
      (mkAtoms e, { e with atomsCache := some (mkAtoms e) })
    else (a, e)

lemma lenIsNot_of_ne {m n : ℕ} (h : m ≠ n) : lenIsNot m n = true := by
  simp [lenIsNot, h]

lemma lenIsNot_eq_false {m n : ℕ} (hEq : m = n) (hs : m ≤ 256) :
    lenIsNot m n = false := by
  subst hEq
  simp [lenIsNot]
  omega

/-- `__setitem__` (image_ensemble.py line 87): indexed write into the
image list. -/
def setItem (e : ImageEnsemble) (i : ℕ) (v : ℕ) : ImageEnsemble :=
  { e with imgl := e.imgl.set i v }

/-- `__delitem__` (image_ensemble.py line 93): indexed deletion from the
image list. -/
def delItem (e : ImageEnsemble) (i : ℕ) : ImageEnsemble :=
  { e with imgl := e.imgl.eraseIdx i }

/-- `insert` (image_ensemble.py line 99): positional insertion into the
image list. -/
def insertItem (e : ImageEnsemble) (i : ℕ) (v : ℕ) : ImageEnsemble :=
  { e with imgl := e.imgl.insertIdx i v }

/-- A 257-image ensemble with a coherent atom cache, one image more
than the CPython small-int interning bound. -/
def bigEnsemble : ImageEnsemble :=
  ⟨List.replicate 257 0, 1, some (mkAtoms ⟨List.replicate 257 0, 1, none⟩)⟩

set_option maxRecDepth 8000 in
/-- Counterexample to claim C6 as stated: on a 257-image ensemble with a
coherent cache, a same-length indexed write is followed by a
re-materialization anyway — the two equal lengths 257 are distinct
CPython int objects, so `len(self._atoms) is not len(self.imgl)` is
true and the `atoms` access does not return the cached list. -/
theorem claim_C6_counterexample :
    bigEnsemble.atomsCache = some (mkAtoms bigEnsemble)
    ∧ (setItem bigEnsemble 0 1).imgl.length = bigEnsemble.imgl.length
    ∧ ((setItem bigEnsemble 0 1).atoms).1 ≠ mkAtoms bigEnsemble := by
  refine ⟨rfl, rfl, ?_⟩
  decide

/-- Claim C6 as amended: with a coherent atom cache, an insertion or
deletion (which changes the list length) makes the next `atoms` access
re-materialize the atom list from the current image list; provided the
ensemble holds at most 256 images (the CPython small-int interning
bound, below which the `is not` length comparison agrees with value
inequality), a same-length indexed write leaves the stale cached atoms
in place, and a delete followed by an insert (net length unchanged) also
returns the stale cache: re-materialization then happens when and only
when the length changed. -/
theorem claim_C6_amended (e : ImageEnsemble) (i j v v' : ℕ)
    (hcache : e.atomsCache = some (mkAtoms e))
    (hsmall : e.imgl.length ≤ 256) :
    (i ≤ e.imgl.length →
      ((insertItem e i v).atoms).1 = mkAtoms (insertItem e i v))
    ∧ (i < e.imgl.length →
      ((delItem e i).atoms).1 = mkAtoms (delItem e i))
    ∧ ((setItem e i v).atoms).1 = mkAtoms e
    ∧ ((setItem e i v).atoms).2 = setItem e i v
    ∧ (i < e.imgl.length → j ≤ e.imgl.length - 1 →
      ((insertItem (delItem e i) j v').atoms).1 = mkAtoms e) := by
  have hlen : (mkAtoms e).length = e.imgl.length := by
    simp [mkAtoms]
  refine ⟨?_, ?_, ?_, ?_, ?_⟩
  · intro hi
    have hins : (insertItem e i v).imgl.length = e.imgl.length + 1 := by
      simp only [insertItem]
      exact List.length_insertIdx i e.imgl hi
    have hne : lenIsNot (mkAtoms e).length (insertItem e i v).imgl.length
        = true :=
      lenIsNot_of_ne (by rw [hlen, hins]; omega)
    show (ImageEnsemble.atoms ⟨(insertItem e i v).imgl, e.pow_th,
      e.atomsCache⟩).1 = _
    rw [hcache]
    simp only [ImageEnsemble.atoms, if_pos hne]
    rfl
  · intro hi
    have hdel : (delItem e i).imgl.length + 1 = e.imgl.length := by
      simp only [delItem]
      exact List.length_eraseIdx_add_one hi
    have hne : lenIsNot (mkAtoms e).length (delItem e i).imgl.length
        = true :=
      lenIsNot_of_ne (by rw [hlen]; omega)
    show (ImageEnsemble.atoms ⟨(delItem e i).imgl, e.pow_th,
      e.atomsCache⟩).1 = _
    rw [hcache]
    simp only [ImageEnsemble.atoms, if_pos hne]
    rfl
  · have hset : (setItem e i v).imgl.length = e.imgl.length := by
      simp [setItem]
    have hne : ¬(lenIsNot (mkAtoms e).length (setItem e i v).imgl.length
        = true) := by
      rw [lenIsNot_eq_false (by rw [hlen, hset]) (by rw [hlen]; exact hsmall)]
      simp
    show (ImageEnsemble.atoms ⟨(setItem e i v).imgl, e.pow_th,
      e.atomsCache⟩).1 = _
    rw [hcache]
    simp only [ImageEnsemble.atoms, if_neg hne]
  · have hset : (setItem e i v).imgl.length = e.imgl.length := by
      simp [setItem]
    have hne : ¬(lenIsNot (mkAtoms e).length (setItem e i v).imgl.length
        = true) := by
      rw [lenIsNot_eq_false (by rw [hlen, hset]) (by rw [hlen]; exact hsmall)]
      simp
    show (ImageEnsemble.atoms ⟨(setItem e i v).imgl, e.pow_th,
      e.atomsCache⟩).2 = _
    rw [hcache]
    simp only [ImageEnsemble.atoms, if_neg hne]
    show (⟨(setItem e i v).imgl, e.pow_th, some (mkAtoms e)⟩ :
      ImageEnsemble) = setItem e i v
    rw [← hcache]
    rfl
  · intro hi hj
    have hdel : (delItem e i).imgl.length + 1 = e.imgl.length := by
      simp only [delItem]
      exact List.length_eraseIdx_add_one hi
    have hnet : (insertItem (delItem e i) j v').imgl.length
        = e.imgl.length := by
      simp only [insertItem, delItem]
      rw [List.length_insertIdx j _ (by
        simp only [delItem] at hdel
        omega)]
      simp only [delItem] at hdel
      omega
    have hne : ¬(lenIsNot (mkAtoms e).length
        (insertItem (delItem e i) j v').imgl.length = true) := by
      rw [lenIsNot_eq_false (by rw [hlen, hnet]) (by rw [hlen]; exact hsmall)]
      simp
    show (ImageEnsemble.atoms ⟨(insertItem (delItem e i) j v').imgl,
      e.pow_th, e.atomsCache⟩).1 = _
    rw [hcache]
    simp only [ImageEnsemble.atoms, if_neg hne]

/-- Witness for the amended claim C6: a two-image ensemble whose cache
was filled by a prior access. -/
theorem claim_C6_amended_witness :
    ((⟨[7, 8], 1, some (mkAtoms ⟨[7, 8], 1, none⟩)⟩ :
        ImageEnsemble).atomsCache
      = some (mkAtoms ⟨[7, 8], 1, some (mkAtoms ⟨[7, 8], 1, none⟩)⟩))
    ∧ ((⟨[7, 8], 1, some (mkAtoms ⟨[7, 8], 1, none⟩)⟩ :
        ImageEnsemble).imgl.length ≤ 256)
    ∧ ((1 ≤ (⟨[7, 8], 1, some (mkAtoms ⟨[7, 8], 1, none⟩)⟩ :
          ImageEnsemble).imgl.length →
        ((insertItem ⟨[7, 8], 1, some (mkAtoms ⟨[7, 8], 1, none⟩)⟩ 1 9).atoms).1
          = mkAtoms (insertItem ⟨[7, 8], 1,
              some (mkAtoms ⟨[7, 8], 1, none⟩)⟩ 1 9))
      ∧ (1 < (⟨[7, 8], 1, some (mkAtoms ⟨[7, 8], 1, none⟩)⟩ :
          ImageEnsemble).imgl.length →
        ((delItem ⟨[7, 8], 1, some (mkAtoms ⟨[7, 8], 1, none⟩)⟩ 1).atoms).1
          = mkAtoms (delItem ⟨[7, 8], 1,
              some (mkAtoms ⟨[7, 8], 1, none⟩)⟩ 1))
      ∧ ((setItem ⟨[7, 8], 1, some (mkAtoms ⟨[7, 8], 1, none⟩)⟩ 1 9).atoms).1
          = mkAtoms ⟨[7, 8], 1, some (mkAtoms ⟨[7, 8], 1, none⟩)⟩
      ∧ ((setItem ⟨[7, 8], 1, some (mkAtoms ⟨[7, 8], 1, none⟩)⟩ 1 9).atoms).2
          = setItem ⟨[7, 8], 1, some (mkAtoms ⟨[7, 8], 1, none⟩)⟩ 1 9
      ∧ (1 < (⟨[7, 8], 1, some (mkAtoms ⟨[7, 8], 1, none⟩)⟩ :
          ImageEnsemble).imgl.length →
        1 ≤ (⟨[7, 8], 1, some (mkAtoms ⟨[7, 8], 1, none⟩)⟩ :
          ImageEnsemble).imgl.length - 1 →
        ((insertItem (delItem ⟨[7, 8], 1,
            some (mkAtoms ⟨[7, 8], 1, none⟩)⟩ 1) 1 9).atoms).1
          = mkAtoms ⟨[7, 8], 1, some (mkAtoms ⟨[7, 8], 1, none⟩)⟩)) :=
  ⟨by decide, by decide,
    claim_C6_amended ⟨[7, 8], 1, some (mkAtoms ⟨[7, 8], 1, none⟩)⟩ 1 1 9 9
      (by decide) (by decide)⟩

/-! `calculate_R` (image_ensemble.py lines 190-266).  Pixels are complex
or real numbers with masked cells as `none`; exact real/complex
arithmetic stands for the float computations. -/

/-- A pixel of a masked complex-valued array. -/
abbrev CVal := Option ℂ

/-- A pixel of a masked real-valued array. -/
abbrev RVal := Option ℝ

/-- The per-atom interface consumed in fourier mode: a spatial-domain
statistic array and its Fourier-domain transform. -/
structure RAtom where
  s_comp : List RVal
  s_hat : List CVal

/-- Modelled from the spec: the fourier-mode Worker Reduction Unit
(`Combinator` with `fourier=True`, from the repository's `combinator.py`,
whose source file is not part of this tree).  Per the spec each unit
returns, per atom of its chunk, both a spatial-domain statistic and its
Fourier-domain transform, as two parallel ordered sequences. -/
def combinatorFourier (chunk : List RAtom) :
    List (List RVal) × List (List CVal) :=
  (chunk.map (fun a => a.s_comp), chunk.map (fun a => a.s_hat))

/-- `np.stack(imgs, axis=-1)` viewed through the per-pixel slices that
the subsequent `axis=2` reductions consume: for each of the `n` pixel
positions, the vector of that pixel's values across the stacked images. -/
def stackLast {α : Type} (imgs : List (List α)) (n : ℕ) (d : α) :
    List (List α) :=
  (List.range n).map (fun i => imgs.map (fun im => im.getD i d))

/-- `np.ma.sum` along the trailing axis at one pixel: masked cells do not
contribute; a fully masked slice is masked. -/
def maSumPixel {α : Type} [AddCommMonoid α] (vec : List (Option α)) :
    Option α :=
  if (vec.filterMap id).length = 0 then none else some (vec.filterMap id).sum

/-- `np.ma.std` along the trailing axis at one pixel of complex data:
the real standard deviation `sqrt(mean(abs(x - mean(x))**2))` over the
unmasked cells; masked when every cell is masked. -/
noncomputable def maStdPixel (vec : List CVal) : RVal :=
  let vs := vec.filterMap id
  if vs.length = 0 then none
  else some (Real.sqrt
    ((vs.map (fun x => Complex.abs (x - vs.sum / vs.length) ^ 2)).sum
      / vs.length))

/-- `np.ma.divide` at one pixel: the result is masked where either
operand is masked or where the divisor is zero (numpy's domained
division). -/
noncomputable def maDivide2 : CVal → RVal → CVal
  | some a, some s => if s = 0 then none else some (a / (s : ℂ))
  | _, _ => none

/-- The element-wise masked standard deviation of a stack along its
trailing axis, as the spec states it. -/
noncomputable def maskedStdLastAxis (stack : List (List CVal)) : List RVal :=
  stack.map maStdPixel

/-- The intermediate tuple `[S_hat_stack, S_stack, S_hat, S, R_hat]`
returned in debug mode, together with `R`. -/
structure RDebug where
  S_hat_stack : List (List CVal)
  S_stack : List (List RVal)
  S_hat : List CVal
  S : List RVal
  R_hat : List CVal
  R : List ℂ

/-- `ImageEnsemble.calculate_R` (image_ensemble.py lines 190-266): one
fourier-mode worker per chunk; the parallel sequences of all chunks are
concatenated in launch order and stacked along a new trailing axis;
`S = np.ma.sum(S_stack, axis=2)`, `S_hat = np.ma.sum(S_hat_stack,
axis=2)`, `hat_std = np.ma.std(S_hat_stack, axis=2)`,
`R_hat = np.ma.divide(S_hat, hat_std)`, `R = _ifftwn(R_hat)`.  The
binding `_ifftwn` (the ifftn of pyfftw, or np.fft.ifft2 when that
module is absent) is passed as the parameter `ifftwn`. -/
noncomputable def calculate_R (atoms : List RAtom) (n_procs n : ℕ)
    (ifftwn : List CVal → List ℂ) : RDebug :=
  let results := (chunk_it atoms n_procs).map combinatorFourier
  let S_stk := (results.map Prod.fst).flatten
  let S_hat_stk := (results.map Prod.snd).flatten
  let S_stack := stackLast S_stk n none
  let S_hat_stack := stackLast S_hat_stk n none
  let S := S_stack.map maSumPixel
  let S_hat := S_hat_stack.map maSumPixel
  let hat_std := S_hat_stack.map maStdPixel
  let R_hat := List.zipWith maDivide2 S_hat hat_std
  ⟨S_hat_stack, S_stack, S_hat, S, R_hat, ifftwn R_hat⟩

/-- Claim C5: in `calculate_R`, the Fourier-domain stack is the atoms'
Fourier arrays stacked along the trailing axis in original order,
`hat_std` (the divisor of `R_hat`) is its element-wise masked standard
deviation along that axis, `R_hat` is the element-wise masked division
of `S_hat` by `hat_std` in which a zero or masked `hat_std` cell
propagates as masked, and `R` is the inverse Fourier transform of
`R_hat`. -/
theorem claim_C5 (atoms : List RAtom) (w n : ℕ)
    (ifftwn : List CVal → List ℂ) (hw : 1 ≤ w) :
    (calculate_R atoms w n ifftwn).S_hat_stack
        = stackLast (atoms.map (fun a => a.s_hat)) n none
    ∧ (calculate_R atoms w n ifftwn).R_hat
        = List.zipWith maDivide2 (calculate_R atoms w n ifftwn).S_hat
            (maskedStdLastAxis (calculate_R atoms w n ifftwn).S_hat_stack)
    ∧ (∀ x : CVal, maDivide2 x (some 0) = none)
    ∧ (∀ x : CVal, maDivide2 x none = none)
    ∧ (calculate_R atoms w n ifftwn).R
        = ifftwn (calculate_R atoms w n ifftwn).R_hat := by
  have hstk : (((chunk_it atoms w).map combinatorFourier).map
      Prod.snd).flatten = atoms.map (fun a => a.s_hat) := by
    rw [List.map_map]
    have hcomp : (Prod.snd ∘ combinatorFourier)
        = fun c : List RAtom => c.map (fun a => a.s_hat) := rfl
    rw [hcomp, ← List.map_flatten, chunk_it_flatten w atoms (Or.inl hw)]
  refine ⟨?_, rfl, ?_, ?_, rfl⟩
  · show stackLast ((((chunk_it atoms w).map combinatorFourier).map
      Prod.snd).flatten) n none
      = stackLast (atoms.map (fun a => a.s_hat)) n none
    rw [hstk]
  · intro x
    cases x <;> simp [maDivide2]
  · intro x
    cases x <;> simp [maDivide2]

/-- Witness for claim C5 at a concrete instantiation: no atoms, one
worker, the identity transform on the empty image. -/
theorem claim_C5_witness :
    (1 ≤ 1)
    ∧ ((calculate_R [] 1 0 (fun _ => [])).S_hat_stack
          = stackLast (([] : List RAtom).map (fun a => a.s_hat)) 0 none
      ∧ (calculate_R [] 1 0 (fun _ => [])).R_hat
          = List.zipWith maDivide2 (calculate_R [] 1 0 (fun _ => [])).S_hat
              (maskedStdLastAxis (calculate_R [] 1 0 (fun _ => [])).S_hat_stack)
      ∧ (∀ x : CVal, maDivide2 x (some 0) = none)
      ∧ (∀ x : CVal, maDivide2 x none = none)
      ∧ (calculate_R [] 1 0 (fun _ => [])).R
          = (fun _ : List CVal => ([] : List ℂ))
              ((calculate_R [] 1 0 (fun _ => [])).R_hat)) :=
  ⟨by decide, claim_C5 [] 1 0 (fun _ => []) (by decide)⟩

end ProperImage
